import Mathlib

/-!
Verification of the Hanabi simulator (`hanabi.py` together with `events.py`).

The Python program is shallowly embedded: every class method that the claims
touch becomes an executable Lean function over explicit state, exceptions
become explicit outcome types, and the two sources of nondeterminism of
`Game.game_loop` (the shuffled deck and the stream of values produced by
`random.choice(actions)`) become explicit parameters (a starting deck list
and an infinite action stream `Nat → Act`).  One application of `step`
corresponds to exactly one iteration of the inner `while not successful`
loop of `Game.game_loop` (one action attempt), including -- for a successful
attempt -- the post-action draw, countdown and bookkeeping that the loop
body performs before moving to the next player.
-/

namespace Hanabi

/-- A Hanabi card, as `Card` in `hanabi.py`: `number` is the rank and
`color` indexes the global tuple `colors = ('red', 'green', 'yellow',
'white', 'cyan')`, so 0 = red, 1 = green, 2 = yellow, 3 = white, 4 = cyan. -/
structure Card where
  number : Nat
  color : Nat
deriving DecidableEq, Repr

/-- The Hanabi exceptions from `events.py` that are raised and caught as
values by the embedded operations (`CardError`, `EmptyDeck`,
`InvalidActionError`).  `WrongPlayError` and `CompletedPile` are carried by
the dedicated outcome types of the operations that raise them. -/
inductive Ev
  | cardError
  | emptyDeck
  | invalidAction
deriving DecidableEq, Repr

/-- Ways a single game run can abort with a non-Hanabi (Python-level)
error, i.e. an exception that `Game.game_loop` does not catch and that is
not the `HanabiError` fatal class: an `events.CardError` escaping the turn
loop (discard from an empty hand), a Python `UnboundLocalError` in
`Game.play` (undocumented strategy), a failed pile lookup
(`KeyError`/`AttributeError` for a card color outside 0..4), and an
`events.EmptyDeck` escaping the dealing phase. -/
inductive Crash
  | cardEscape
  | unboundLocal
  | pyLookup
  | deckEscape
deriving DecidableEq, Repr

/-- The three actions drawn by `random.choice(actions)` in the turn loop. -/
inductive Act
  | play
  | hint
  | discard
deriving DecidableEq, Repr

/-- The result record returned by `Game.game_loop`:
`{'finished': ..., 'score': ..., 'turns': ...}`. -/
structure GameResult where
  finished : Bool
  score : Nat
  turns : Nat
deriving DecidableEq, Repr

/-- `CardStack.pop()` with the default index: the Python list `cards` is
kept in order (index 0 first, top of the stack last); popping removes the
last element and raises `events.CardError` when the stack is empty. -/
def CardStack.pop (l : List Card) : Except Ev (Card × List Card) :=
  match l.getLast? with
  | some c => .ok (c, l.dropLast)
  | none => .error .cardError

/-- `CardStack.pop(idx)` as reached through `Player.remove_card(idx)`:
on an empty stack `CardStack.pop` raises `events.CardError`; on a nonempty
stack, an out-of-range index makes `list.pop(idx)` raise `IndexError`,
which `Player.remove_card` translates into `events.InvalidActionError`. -/
def Player.remove_card (hand : List Card) (idx : Option Nat) :
    Except Ev (Card × List Card) :=
  match idx with
  | none => CardStack.pop hand
  | some i =>
    match hand with
    | [] => .error .cardError
    | _ =>
      match hand[i]? with
      | some c => .ok (c, hand.eraseIdx i)
      | none => .error .invalidAction

/-- The rank tuple `numbers = (1, 2, 3, 4, 5)` from `hanabi.py`. -/
def numbersL : List Nat := [1, 2, 3, 4, 5]

/-- The multiplicity tuple `quantities = (3, 2, 2, 2, 1)` from `hanabi.py`. -/
def quantitiesL : List Nat := [3, 2, 2, 2, 1]

/-- The cards of one color added by `Deck.__init__`: for each
`(n, q)` in `zip(numbers, quantities)`, `q` copies of rank `n`. -/
def colorCards (c : Nat) : List Card :=
  ((numbersL.zip quantitiesL).map (fun nq => List.replicate nq.2 ⟨nq.1, c⟩)).flatten

/-- The starting deck built by `Deck.__init__` (unshuffled): colors in
order, each contributing `colorCards`. -/
def Deck.init : List Card :=
  ((List.range 5).map colorCards).flatten

/-- `Deck.pop`: wraps `CardStack.pop` and re-raises `events.CardError` as
`events.EmptyDeck`. -/
def Deck.pop (l : List Card) : Except Ev (Card × List Card) :=
  match CardStack.pop l with
  | .ok r => .ok r
  | .error .cardError => .error .emptyDeck
  | .error e => .error e

/-- A monochromatic pile (`Pile` in `hanabi.py`): its color and its card
list (index 0 is the bottom sentinel, the last element is the top). -/
structure Pile where
  color : Nat
  cards : List Card
deriving DecidableEq, Repr

/-- `Pile.append`: the defensive color check raises
`events.InvalidActionError` on a mismatch, otherwise the card is pushed. -/
def Pile.append (p : Pile) (card : Card) : Except Ev Pile :=
  if card.color ≠ p.color then .error .invalidAction
  else .ok ⟨p.color, p.cards ++ [card]⟩

/-- The `Piles` container: the dict `{color: Pile}` of `Piles.__init__`,
represented as the list of its five piles in color order (Python dicts
iterate in insertion order). -/
abbrev Piles := List Pile

/-- `Piles.__init__`: one pile per color, each seeded with the bogus
rank-0 card of its color. -/
def Piles.init : Piles :=
  (List.range 5).map (fun c => Pile.mk c [⟨0, c⟩])

/-- `Piles.is_playable`: `none` models the Python crash when
`self.piles.get(card.color)` returns `None` (then `.top()` would raise);
otherwise `some b` where `b` holds iff the target pile's top is `None` or
the card's number is the top number plus one. -/
def Piles.is_playable (ps : Piles) (card : Card) : Option Bool :=
  match (ps : List Pile)[card.color]? with
  | none => none
  | some pile =>
    match pile.cards.getLast? with
    | none => some true
    | some t => some (card.number == t.number + 1)

/-- Possible outcomes of `Piles.append`. -/
inductive AppendRes
  | ok (ps : Piles)
  | completed (ps : Piles)
  | wrongPlay
  | invalid
  | crash
deriving DecidableEq

/-- `Piles.append`: compute playability, fetch the target pile; if playable
append (the defensive color check of `Pile.append` may raise
`InvalidActionError`, outcome `invalid`), else raise `WrongPlayError`
(outcome `wrongPlay`, no state change); after a successful append a rank-5
card additionally raises `CompletedPile` (outcome `completed`, with the
pile already extended). -/
def Piles.append (ps : Piles) (card : Card) : AppendRes :=
  match ps.is_playable card with
  | none => .crash
  | some can_play =>
    match (ps : List Pile)[card.color]? with
    | none => .crash
    | some target =>
      if can_play then
        match target.append card with
        | .error _ => .invalid
        | .ok p' =>
          let ps' : Piles := (ps : List Pile).set card.color p'
          if card.number == 5 then .completed ps' else .ok ps'
      else .wrongPlay

/-- `Piles.score`: iterate over the piles in dict order and add the top
card's number; a `Card` object is always truthy in Python, so any nonempty
pile contributes its top number (the sentinel contributes 0). -/
def Piles.score (ps : Piles) : Nat :=
  (ps : List Pile).foldl
    (fun total p =>
      match p.cards.getLast? with
      | some c => total + c.number
      | none => total) 0

/-- Possible outcomes of one call to `Game.play`. -/
inductive PlayRes
  | invalid
  | invalidLate (hand' : List Card)
  | wrongPlay (hand' : List Card)
  | ok (ps' : Piles) (hand' : List Card)
  | completed (ps' : Piles) (hand' : List Card)
  | crash (e : Crash)
deriving DecidableEq

/-- The `for idx, card in enumerate(player.hand.cards)` scan of the `best`
strategy in `Game.play`: first index whose card `is_playable`.  `none`
models the crash of `is_playable` on a bad color; `some none` means the
scan finished without finding a playable card (`found_card` stays false);
`some (some i)` is the first playable index. -/
def findPlayable (ps : Piles) : List Card → Nat → Option (Option Nat)
  | [], _ => some none
  | c :: rest, i =>
    match ps.is_playable c with
    | none => none
    | some true => some (some i)
    | some false => findPlayable ps rest (i + 1)

/-- The tail of `Game.play` once the card to play has been removed from
the hand: `self.piles.append(card)` and the translation of its outcome.
An `InvalidActionError` raised here (defensive color check) propagates to
the turn loop with the hand already mutated (`invalidLate`). -/
def finishPlay (ps : Piles) (card : Card) (hand' : List Card) : PlayRes :=
  match ps.append card with
  | .ok ps' => .ok ps' hand'
  | .completed ps' => .completed ps' hand'
  | .wrongPlay => .wrongPlay hand'
  | .invalid => .invalidLate hand'
  | .crash => .crash .pyLookup

/-- `Game.play`: empty hand raises `InvalidActionError`; under `'best'`
the hand is scanned for the first playable card, which is removed by index
if found; under `'random'`, or under `'best'` with no playable card found,
the top of the hand is removed unconditionally; for any other strategy the
guard `self.play_strategy == 'random' or not found_card` reads the unbound
local `found_card` and raises `UnboundLocalError`.  The removed card is
passed to `Piles.append`. -/
def Game.play (strategy : String) (ps : Piles) (hand : List Card) : PlayRes :=
  if hand.length == 0 then .invalid
  else if strategy == "best" then
    match findPlayable ps hand 0 with
    | none => .crash .pyLookup
    | some (some i) =>
      match Player.remove_card hand (some i) with
      | .ok (card, hand') => finishPlay ps card hand'
      | .error .invalidAction => .invalid
      | .error _ => .crash .cardEscape
    | some none =>
      match Player.remove_card hand none with
      | .ok (card, hand') => finishPlay ps card hand'
      | .error .invalidAction => .invalid
      | .error _ => .crash .cardEscape
  else if strategy == "random" then
    match Player.remove_card hand none with
    | .ok (card, hand') => finishPlay ps card hand'
    | .error .invalidAction => .invalid
    | .error _ => .crash .cardEscape
  else .crash .unboundLocal

/-- `Game.discard`: rejected with `InvalidActionError` when
`self.hints >= 7`; otherwise `player.remove_card()` pops the top of the
hand (re-raised as `events.CardError` when the hand is empty, which the
turn loop does not catch) and the hint counter is incremented. -/
def Game.discard (hints : Nat) (hand : List Card) :
    Except Ev (Nat × List Card) :=
  if hints ≥ 7 then .error .invalidAction
  else
    match Player.remove_card hand none with
    | .ok (_, hand') => .ok (hints + 1, hand')
    | .error _ => .error .cardError

/-- `Game.hint`: decrements the hint counter when positive, otherwise
raises `InvalidActionError`. -/
def Game.hint (hints : Nat) : Except Ev Nat :=
  if hints > 0 then .ok (hints - 1) else .error .invalidAction

/-- Phase of a game run: the `Playing` loop (`running`), a returned result
record (`finished`), a raised `events.HanabiError` of the fatal/anomaly
class (`fatalStop`: too many tries, too many turns, bad player count), or
an uncaught non-Hanabi error (`crashed`). -/
inductive Phase
  | running
  | finished (r : GameResult)
  | fatalStop
  | crashed (e : Crash)
deriving DecidableEq, Repr

/-- The state of `Game.game_loop` at the start of one iteration of the
inner `while not successful` loop (one action attempt): the `Game`
attributes (`hints`, `errors`, `deck`, `piles`, player `hands`) and the
loop locals (`cur` = index of the active player, `tries`, `turn`,
`lastTurn` = `is_last_turn`, `turnsLeft` = `turns_left`).  `clock` counts
how many values of the action stream have been consumed (one per attempt).
`lost` is a ghost counter, not present in the source: it counts the cards
that the program drops entirely (a successful discard, and a card removed
from the hand whose `Piles.append` raised `WrongPlayError` or the defensive
`InvalidActionError`); it influences no transition and only serves to state
the card-conservation balance. -/
structure Conf where
  hints : Nat
  errors : Nat
  deck : List Card
  piles : Piles
  hands : List (List Card)
  cur : Nat
  tries : Nat
  clock : Nat
  turn : Nat
  lastTurn : Bool
  turnsLeft : Nat
  lost : Nat
  phase : Phase
deriving DecidableEq

/-- The active player's hand. -/
def handOf (c : Conf) : List Card := c.hands.getD c.cur []

/-- Outcome of dispatching one attempted action for the active player
(the `try` block of the turn loop together with its `except` clauses). -/
inductive ActRes
  | retry
  | retryLost (hands' : List (List Card))
  | wrong (hands' : List (List Card))
  | success (a : Act) (hints' : Nat) (piles' : Piles)
      (hands' : List (List Card)) (lostInc : Nat)
  | escape (e : Crash)
deriving DecidableEq

/-- Dispatch of one attempted action (`if action == 'play' ... elif ...
else ...` in the turn loop), translated into an `ActRes`:
`InvalidActionError` is caught and means retry; `WrongPlayError` is caught
(`wrong`); `CompletedPile` is caught and adds a hint (`success` with
`hints + 1`); a successful action is `success`; an uncaught exception is
`escape`. -/
def tryAction (stg : String) (act : Act) (c : Conf) : ActRes :=
  match act with
  | .play =>
    match Game.play stg c.piles (handOf c) with
    | .invalid => .retry
    | .invalidLate h' => .retryLost (c.hands.set c.cur h')
    | .wrongPlay h' => .wrong (c.hands.set c.cur h')
    | .ok ps' h' => .success .play c.hints ps' (c.hands.set c.cur h') 0
    | .completed ps' h' => .success .play (c.hints + 1) ps' (c.hands.set c.cur h') 0
    | .crash e => .escape e
  | .hint =>
    match Game.hint c.hints with
    | .ok h => .success .hint h c.piles c.hands 0
    | .error _ => .retry
  | .discard =>
    match Game.discard c.hints (handOf c) with
    | .ok (hints', h') => .success .discard hints' c.piles (c.hands.set c.cur h') 1
    | .error .invalidAction => .retry
    | .error _ => .escape .cardEscape

/-- The draw after a successful `play` or `discard` action: pop the deck
and append the card to the active player's hand; on `events.EmptyDeck` no
draw occurs and `is_last_turn` is set.  Returns the new deck, hands and
`is_last_turn` flag. -/
def postDraw (a : Act) (deck : List Card) (hands : List (List Card))
    (cur : Nat) (lastT : Bool) : List Card × List (List Card) × Bool :=
  if a = .play ∨ a = .discard then
    match Deck.pop deck with
    | .ok (card, d') => (d', hands.set cur ((hands.getD cur []) ++ [card]), lastT)
    | .error _ => (deck, hands, true)
  else (deck, hands, lastT)

/-- The tail of one player's loop iteration after a successful action:
draw (for `play`/`discard`), decrement `turns_left` when `is_last_turn`,
return the `Victory` record when it reaches 0, raise the fatal
`HanabiError` when `turn > 35`, otherwise move on to the next player
(wrapping to player 0 and incrementing `turn` after the last player). -/
def completeTurn (c : Conf) (a : Act) (hints' : Nat) (piles' : Piles)
    (hands' : List (List Card)) (lostInc : Nat) : Conf :=
  let pd := postDraw a c.deck hands' c.cur c.lastTurn
  let tl' := if pd.2.2 then c.turnsLeft - 1 else c.turnsLeft
  let base : Conf :=
    { c with hints := hints', piles := piles', deck := pd.1, hands := pd.2.1,
             lastTurn := pd.2.2, turnsLeft := tl', lost := c.lost + lostInc,
             clock := c.clock + 1 }
  if tl' = 0 then
    { base with phase := .finished ⟨true, Piles.score piles', c.turn⟩ }
  else if c.turn > 35 then { base with phase := .fatalStop }
  else if c.cur + 1 = 4 then { base with cur := 0, turn := c.turn + 1, tries := 0 }
  else { base with cur := c.cur + 1, tries := 0 }

/-- One iteration of the inner `while not successful` loop of
`Game.game_loop` (one action attempt): increment `tries` and abort fatally
past 20; draw the next action from the stream; dispatch it; a retry keeps
the same player, a `WrongPlayError` costs an error token and returns the
`Defeat` record when the counter hits 0 (and otherwise retries, since the
handler does not set `successful`), and a successful action completes the
player's turn.  Non-running phases are absorbing. -/
def step (stg : String) (o : Nat → Act) (c : Conf) : Conf :=
  match c.phase with
  | .running =>
    if c.tries + 1 > 20 then { c with tries := c.tries + 1, phase := .fatalStop }
    else
      match tryAction stg (o c.clock) c with
      | .retry => { c with tries := c.tries + 1, clock := c.clock + 1 }
      | .retryLost h' =>
        { c with hands := h', lost := c.lost + 1,
                 tries := c.tries + 1, clock := c.clock + 1 }
      | .escape e =>
        { c with phase := .crashed e, tries := c.tries + 1, clock := c.clock + 1 }
      | .wrong h' =>
        if c.errors - 1 = 0 then
          { c with hands := h', errors := c.errors - 1, lost := c.lost + 1,
                   tries := c.tries + 1, clock := c.clock + 1,
                   phase := .finished ⟨false, Piles.score c.piles, c.turn⟩ }
        else
          { c with hands := h', errors := c.errors - 1, lost := c.lost + 1,
                   tries := c.tries + 1, clock := c.clock + 1 }
      | .success a h' ps' hs' li =>
        completeTurn { c with tries := c.tries + 1 } a h' ps' hs' li
  | _ => c

/-- Deal one hand of `n` cards: `n` consecutive `Deck.pop` calls, the
popped cards appended to the hand in order. -/
def dealHand : Nat → List Card → Option (List Card × List Card)
  | 0, d => some ([], d)
  | n + 1, d =>
    match Deck.pop d with
    | .ok (c, d') => (dealHand n d').map (fun r => (c :: r.1, r.2))
    | .error _ => none

/-- Deal hands to `p` players, four cards each (`n_players = 4` in
`Game.init_game`, hence `cards_to_deal = 4`). -/
def dealAll : Nat → List Card → Option (List (List Card) × List Card)
  | 0, d => some ([], d)
  | p + 1, d =>
    match dealHand 4 d with
    | some (h, d') => (dealAll p d').map (fun r => (h :: r.1, r.2))
    | none => none

/-- The configuration after `Game.init_game` and the dealing phase of
`Game.game_loop`, for a given (already shuffled) starting deck: counters
`hints = 7`, `errors = 3`, fresh piles, four players with four cards each,
`turn = 1`, `turns_left = n_players = 4`.  If the deck runs out while
dealing, the uncaught `events.EmptyDeck` aborts the run (`crashed`). -/
def initConf (d : List Card) : Conf :=
  match dealAll 4 d with
  | some (hs, d') =>
    { hints := 7, errors := 3, deck := d', piles := Piles.init, hands := hs,
      cur := 0, tries := 0, clock := 0, turn := 1, lastTurn := false,
      turnsLeft := 4, lost := 0, phase := .running }
  | none =>
    { hints := 7, errors := 3, deck := d, piles := Piles.init, hands := [],
      cur := 0, tries := 0, clock := 0, turn := 1, lastTurn := false,
      turnsLeft := 4, lost := 0, phase := .crashed .deckEscape }

/-- The configuration reached after `n` action attempts of a game run with
strategy `stg`, action stream `o` and starting deck `d`.  The reachable
states of a run are exactly `confAt stg o d n` for `n : Nat`. -/
def confAt (stg : String) (o : Nat → Act) (d : List Card) (n : Nat) : Conf :=
  (step stg o)^[n] (initConf d)

/-- A card that can occur in a Hanabi deck: rank 1..5, color 0..4. -/
def validCardP (c : Card) : Prop :=
  1 ≤ c.number ∧ c.number ≤ 5 ∧ c.color < 5

instance (c : Card) : Decidable (validCardP c) := by
  unfold validCardP; infer_instance

/-- A legal starting deck: 50 cards (the size `Deck.__init__` produces),
all of them Hanabi cards.  Every shuffle of `Deck.init` satisfies this. -/
def validDeck (d : List Card) : Prop :=
  d.length = 50 ∧ ∀ c ∈ d, validCardP c

instance (d : List Card) : Decidable (validDeck d) := by
  unfold validDeck; infer_instance

end Hanabi

namespace Hanabi

/-! ### Basic list lemmas used throughout the development -/

theorem getD_set_self {α : Type} (l : List α) (i : Nat) (a x : α)
    (h : i < l.length) : (l.set i a).getD i x = a := by
  induction l generalizing i with
  | nil => simp at h
  | cons b t ih =>
    cases i with
    | zero => rfl
    | succ j => exact ih j (by simpa using h)

theorem getD_set_ne {α : Type} (l : List α) (i j : Nat) (a x : α)
    (h : i ≠ j) : (l.set i a).getD j x = l.getD j x := by
  induction l generalizing i j with
  | nil => rfl
  | cons b t ih =>
    cases i with
    | zero => cases j with
      | zero => exact absurd rfl h
      | succ j' => rfl
    | succ i' => cases j with
      | zero => rfl
      | succ j' => exact ih i' j' (fun hh => h (by rw [hh]))

theorem getD_mem {α : Type} (l : List α) (i : Nat) (x : α)
    (h : i < l.length) : l.getD i x ∈ l := by
  induction l generalizing i with
  | nil => simp at h
  | cons b t ih =>
    cases i with
    | zero => exact List.mem_cons_self _ _
    | succ j => exact List.mem_cons_of_mem _ (ih j (by simpa using h))

theorem mem_set_cases {α : Type} {l : List α} {i : Nat} {a x : α}
    (h : x ∈ l.set i a) : x ∈ l ∨ x = a := by
  induction l generalizing i with
  | nil => simp at h
  | cons b t ih =>
    cases i with
    | zero =>
      rcases List.mem_cons.mp h with h1 | h1
      · exact Or.inr h1
      · exact Or.inl (List.mem_cons_of_mem _ h1)
    | succ j =>
      rcases List.mem_cons.mp h with h1 | h1
      · exact Or.inl (h1 ▸ List.mem_cons_self _ _)
      · rcases ih h1 with h2 | h2
        · exact Or.inl (List.mem_cons_of_mem _ h2)
        · exact Or.inr h2

theorem sumf_set {α : Type} (f : α → Nat) (l : List α) (i : Nat) (a x : α)
    (h : i < l.length) :
    ((l.set i a).map f).sum + f (l.getD i x) = (l.map f).sum + f a := by
  induction l generalizing i with
  | nil => simp at h
  | cons b t ih =>
    cases i with
    | zero =>
      rw [List.set_cons_zero, List.getD_cons_zero, List.map_cons,
        List.map_cons, List.sum_cons, List.sum_cons]
      omega
    | succ j =>
      have ih' := ih j (by simpa using h)
      rw [List.set_cons_succ, List.getD_cons_succ, List.map_cons,
        List.map_cons, List.sum_cons, List.sum_cons]
      omega

theorem getD_of_getElem? {α : Type} {l : List α} {i : Nat} {a : α} (x : α)
    (h : l[i]? = some a) : l.getD i x = a := by
  rw [List.getD_eq_getElem?_getD, h]
  rfl

theorem getElem?_eq_getD {α : Type} (l : List α) (i : Nat) (x : α)
    (h : i < l.length) : l[i]? = some (l.getD i x) := by
  rw [List.getD_eq_getElem l x h]
  exact List.getElem?_eq_getElem h

theorem mem_of_getLast? {α : Type} {l : List α} {a : α}
    (h : l.getLast? = some a) : a ∈ l := by
  induction l with
  | nil => simp at h
  | cons b t ih =>
    cases t with
    | nil =>
      simp [List.getLast?] at h
      simp [h]
    | cons c u =>
      rw [List.getLast?_cons_cons] at h
      exact List.mem_cons_of_mem _ (ih h)

theorem mem_of_mem_dropLast {α : Type} {l : List α} {a : α}
    (h : a ∈ l.dropLast) : a ∈ l :=
  (List.dropLast_sublist l).mem h

theorem sum_le_of_forall_le (l : List Nat) (b : Nat) (h : ∀ x ∈ l, x ≤ b) :
    l.sum ≤ b * l.length := by
  induction l with
  | nil => simp
  | cons x t ih =>
    have hx := h x (List.mem_cons_self _ _)
    have ht := ih (fun y hy => h y (List.mem_cons_of_mem _ hy))
    simp only [List.sum_cons, List.length_cons]
    calc x + t.sum ≤ b + b * t.length := Nat.add_le_add hx ht
    _ = b * (t.length + 1) := by ring

/-! ### Pile contents: the contiguous ramp `0..k` -/

/-- The card list `sentinel, rank 1, ..., rank k` of color `i`: the shape
every pile keeps at all times. -/
def pileRamp (i k : Nat) : List Card :=
  (List.range (k + 1)).map (fun n => ⟨n, i⟩)

/-- The pile of color `i` in a `Piles` container (a missing index yields a
dummy pile, never consulted under the invariant `goodPiles`). -/
def pileAt (ps : Piles) (i : Nat) : Pile := (ps : List Pile).getD i ⟨0, []⟩

/-- The rank of the top card of a pile (0 for an empty card list). -/
def topNum (p : Pile) : Nat :=
  match p.cards.getLast? with
  | some c => c.number
  | none => 0

/-- Number of completed piles (top card rank 5). -/
def countTop5 (ps : Piles) : Nat :=
  ((ps : List Pile).map (fun p => if topNum p = 5 then 1 else 0)).sum

/-- Total number of cards in the piles, sentinels included. -/
def sumPile (ps : Piles) : Nat :=
  ((ps : List Pile).map (fun p => p.cards.length)).sum

/-- Total number of cards across the players' hands. -/
def sumLen (hs : List (List Card)) : Nat := (hs.map List.length).sum

theorem pileRamp_succ (i k : Nat) :
    pileRamp i (k + 1) = pileRamp i k ++ [⟨k + 1, i⟩] := by
  simp [pileRamp, List.range_succ]

theorem pileRamp_getLast (i k : Nat) :
    (pileRamp i k).getLast? = some ⟨k, i⟩ := by
  cases k with
  | zero => rfl
  | succ k' => rw [pileRamp_succ, List.getLast?_concat]

theorem pileRamp_length (i k : Nat) : (pileRamp i k).length = k + 1 := by
  simp [pileRamp]

theorem pileRamp_ne_nil (i k : Nat) : pileRamp i k ≠ [] := by
  intro h
  have := pileRamp_length i k
  rw [h] at this
  simp at this

theorem topNum_ramp (i k c : Nat) : topNum ⟨c, pileRamp i k⟩ = k := by
  simp [topNum, pileRamp_getLast]

/-- All piles are well-shaped: exactly five, the pile at index `i` has
color `i` and carries the ramp `0..k` for some `k ≤ 5`. -/
def goodPiles (ps : Piles) : Prop :=
  (ps : List Pile).length = 5 ∧
    ∀ i, i < 5 → (pileAt ps i).color = i ∧
      ∃ k, k ≤ 5 ∧ (pileAt ps i).cards = pileRamp i k

theorem goodPiles_init : goodPiles Piles.init := by
  refine ⟨rfl, ?_⟩
  intro i hi
  interval_cases i <;>
    exact ⟨rfl, 0, by omega, rfl⟩

end Hanabi

namespace Hanabi

/-! ### Characterization of `Piles.is_playable` and `Piles.append` -/

theorem is_playable_eq (ps : Piles) (card : Card) (k : Nat)
    (hlen : (ps : List Pile).length = 5) (hcol : card.color < 5)
    (hk : (pileAt ps card.color).cards = pileRamp card.color k) :
    ps.is_playable card = some (card.number == k + 1) := by
  unfold Piles.is_playable
  rw [getElem?_eq_getD (ps : List Pile) card.color ⟨0, []⟩ (by omega)]
  show (match (pileAt ps card.color).cards.getLast? with
    | none => some true
    | some t => some (card.number == t.number + 1)) = _
  rw [hk, pileRamp_getLast]

theorem append_spec (ps : Piles) (card : Card) (k : Nat)
    (hlen : (ps : List Pile).length = 5) (hcol : card.color < 5)
    (hcolor : (pileAt ps card.color).color = card.color)
    (hk : (pileAt ps card.color).cards = pileRamp card.color k) :
    (card.number = k + 1 → card.number ≠ 5 → Piles.append ps card =
        .ok ((ps : List Pile).set card.color
          ⟨card.color, pileRamp card.color (k + 1)⟩)) ∧
    (card.number = k + 1 → card.number = 5 → Piles.append ps card =
        .completed ((ps : List Pile).set card.color
          ⟨card.color, pileRamp card.color (k + 1)⟩)) ∧
    (card.number ≠ k + 1 → Piles.append ps card = .wrongPlay) := by
  have hstep : ∀ t : Except Ev Pile,
      (pileAt ps card.color).append card = t →
      Piles.append ps card =
        (if card.number == k + 1 then
          match t with
          | .error _ => AppendRes.invalid
          | .ok p' =>
            if card.number == 5 then
              AppendRes.completed ((ps : List Pile).set card.color p')
            else AppendRes.ok ((ps : List Pile).set card.color p')
        else AppendRes.wrongPlay) := by
    intro t ht
    unfold Piles.append
    rw [is_playable_eq ps card k hlen hcol hk,
      getElem?_eq_getD (ps : List Pile) card.color ⟨0, []⟩ (by omega)]
    show (if card.number == k + 1 then _ else AppendRes.wrongPlay) = _
    unfold pileAt at ht
    rw [ht]
  have happd : (pileAt ps card.color).append card =
      .ok ⟨card.color, pileRamp card.color k ++ [card]⟩ := by
    unfold Pile.append
    rw [hcolor, hk]
    simp
  have h := hstep _ happd
  refine ⟨?_, ?_, ?_⟩
  · intro h1 h2
    have hb : (card.number == k + 1) = true := by simpa using h1
    have hb5 : (card.number == 5) = false := by simpa using h2
    have hc : pileRamp card.color k ++ [card] = pileRamp card.color (k + 1) := by
      rw [pileRamp_succ]
      have hcard : card = ⟨k + 1, card.color⟩ := by
        cases card with
        | mk n c => simp_all
      rw [hcard]
    rw [h, hb, hc]
    simp [hb5]
  · intro h1 h2
    have hb : (card.number == k + 1) = true := by simpa using h1
    have hb5 : (card.number == 5) = true := by simpa using h2
    have hc : pileRamp card.color k ++ [card] = pileRamp card.color (k + 1) := by
      rw [pileRamp_succ]
      have hcard : card = ⟨k + 1, card.color⟩ := by
        cases card with
        | mk n c => simp_all
      rw [hcard]
    rw [h, hb, hc]
    simp [hb5]
  · intro h1
    have hb : (card.number == k + 1) = false := by simpa using h1
    rw [h, hb]
    simp

theorem append_cases (ps : Piles) (card : Card) (hgp : goodPiles ps)
    (hv : validCardP card) :
    Piles.append ps card = .wrongPlay ∨
    (∃ k, k ≤ 4 ∧ (pileAt ps card.color).cards = pileRamp card.color k ∧
      card.number = k + 1 ∧
      ((card.number ≠ 5 ∧ Piles.append ps card =
          .ok ((ps : List Pile).set card.color
            ⟨card.color, pileRamp card.color (k + 1)⟩)) ∨
       (card.number = 5 ∧ Piles.append ps card =
          .completed ((ps : List Pile).set card.color
            ⟨card.color, pileRamp card.color (k + 1)⟩)))) := by
  obtain ⟨hlen, hall⟩ := hgp
  obtain ⟨h1, hn5, hcol⟩ := hv
  obtain ⟨hcolor, k, hk5, hk⟩ := hall card.color hcol
  obtain ⟨hok, hcomp, hwrong⟩ := append_spec ps card k hlen hcol hcolor hk
  by_cases hnum : card.number = k + 1
  · right
    refine ⟨k, by omega, hk, hnum, ?_⟩
    by_cases h5 : card.number = 5
    · exact Or.inr ⟨h5, hcomp hnum h5⟩
    · exact Or.inl ⟨h5, hok hnum h5⟩
  · exact Or.inl (hwrong hnum)

theorem goodPiles_set (ps : Piles) (i k : Nat) (hgp : goodPiles ps)
    (hi : i < 5) (hk : k ≤ 5) :
    goodPiles ((ps : List Pile).set i ⟨i, pileRamp i k⟩) := by
  obtain ⟨hlen, hall⟩ := hgp
  refine ⟨by rw [List.length_set]; exact hlen, ?_⟩
  intro j hj
  by_cases hij : i = j
  · subst hij
    unfold pileAt
    rw [getD_set_self _ _ _ _ (by omega)]
    exact ⟨rfl, k, hk, rfl⟩
  · unfold pileAt
    rw [getD_set_ne _ _ _ _ _ hij]
    exact hall j hj

theorem sumPile_set (ps : Piles) (i : Nat) (p' : Pile)
    (hi : i < (ps : List Pile).length) :
    sumPile ((ps : List Pile).set i p') + (pileAt ps i).cards.length =
      sumPile ps + p'.cards.length :=
  sumf_set (fun p => p.cards.length) ps i p' ⟨0, []⟩ hi

theorem countTop5_set (ps : Piles) (i : Nat) (p' : Pile)
    (hi : i < (ps : List Pile).length) :
    countTop5 ((ps : List Pile).set i p') +
        (if topNum (pileAt ps i) = 5 then 1 else 0) =
      countTop5 ps + (if topNum p' = 5 then 1 else 0) :=
  sumf_set (fun p => if topNum p = 5 then 1 else 0) ps i p' ⟨0, []⟩ hi

/-! ### `Piles.score` -/

theorem score_foldl (l : List Pile) (acc : Nat) :
    (l.foldl (fun total p =>
      match p.cards.getLast? with
      | some c => total + c.number
      | none => total) acc) = acc + (l.map topNum).sum := by
  induction l generalizing acc with
  | nil => simp
  | cons p t ih =>
    rw [List.foldl_cons, ih, List.map_cons, List.sum_cons]
    have hstep : (match p.cards.getLast? with
        | some c => acc + c.number
        | none => acc) = acc + topNum p := by
      unfold topNum
      cases p.cards.getLast? with
      | none => rfl
      | some c => rfl
    show (match p.cards.getLast? with
      | some c => acc + c.number
      | none => acc) + (t.map topNum).sum = _
    rw [hstep]
    omega

theorem score_eq_sum_topNum (ps : Piles) :
    Piles.score ps = ((ps : List Pile).map topNum).sum := by
  unfold Piles.score
  rw [score_foldl]
  omega

theorem topNum_le_of_good (ps : Piles) (hgp : goodPiles ps) (p : Pile)
    (hp : p ∈ (ps : List Pile)) : topNum p ≤ 5 := by
  obtain ⟨hlen, hall⟩ := hgp
  obtain ⟨n, hn, hget⟩ := List.mem_iff_getElem.mp hp
  obtain ⟨-, k, hk5, hk⟩ := hall n (by omega)
  have hpa : pileAt ps n = p := by
    unfold pileAt
    rw [List.getD_eq_getElem _ _ hn, hget]
  rw [← hpa]
  unfold topNum
  rw [hk, pileRamp_getLast]
  exact hk5

theorem score_le_25 (ps : Piles) (hgp : goodPiles ps) : Piles.score ps ≤ 25 := by
  rw [score_eq_sum_topNum]
  have hlen : ((ps : List Pile).map topNum).length = 5 := by
    rw [List.length_map]
    exact hgp.1
  have := sum_le_of_forall_le ((ps : List Pile).map topNum) 5 ?_
  · omega
  · intro x hx
    obtain ⟨p, hp, hpx⟩ := List.mem_map.mp hx
    rw [← hpx]
    exact topNum_le_of_good ps hgp p hp


/-! ### Shapes of the action operations -/

theorem remove_card_top (hand : List Card) (hne : hand ≠ []) :
    ∃ card hand', Player.remove_card hand none = .ok (card, hand') ∧
      card ∈ hand ∧ hand'.length + 1 = hand.length ∧ ∀ x ∈ hand', x ∈ hand := by
  cases hl : hand.getLast? with
  | none => exact absurd (List.getLast?_eq_none_iff.mp hl) hne
  | some c =>
    refine ⟨c, hand.dropLast, ?_, mem_of_getLast? hl, ?_, ?_⟩
    · unfold Player.remove_card CardStack.pop
      rw [hl]
    · rw [List.length_dropLast]
      have : hand.length ≠ 0 := fun h => hne (List.length_eq_zero.mp h)
      omega
    · exact fun x hx => mem_of_mem_dropLast hx

theorem remove_card_idx (hand : List Card) (i : Nat) (hi : i < hand.length) :
    ∃ card hand', Player.remove_card hand (some i) = .ok (card, hand') ∧
      card ∈ hand ∧ hand'.length + 1 = hand.length ∧ ∀ x ∈ hand', x ∈ hand := by
  cases hand with
  | nil => simp at hi
  | cons a t =>
    refine ⟨(a :: t)[i], (a :: t).eraseIdx i, ?_, List.getElem_mem hi, ?_, ?_⟩
    · show (match (a :: t)[i]? with
        | some c => Except.ok (c, (a :: t).eraseIdx i)
        | none => Except.error Ev.invalidAction) = _
      rw [List.getElem?_eq_getElem hi]
    · rw [List.length_eraseIdx, if_pos hi]
      simp only [List.length_cons]
      omega
    · exact fun x hx => (List.eraseIdx_sublist (a :: t) i).subset hx

theorem is_playable_isSome (ps : Piles) (card : Card)
    (hlen : (ps : List Pile).length = 5) (hcol : card.color < 5) :
    ∃ b, ps.is_playable card = some b := by
  unfold Piles.is_playable
  rw [getElem?_eq_getD (ps : List Pile) card.color ⟨0, []⟩ (by omega)]
  show ∃ b, (match ((ps : List Pile).getD card.color ⟨0, []⟩).cards.getLast? with
    | none => some true
    | some t => some (card.number == t.number + 1)) = some b
  cases ((ps : List Pile).getD card.color ⟨0, []⟩).cards.getLast? with
  | none => exact ⟨true, rfl⟩
  | some t => exact ⟨_, rfl⟩

theorem findPlayable_shape (ps : Piles) (hlen : (ps : List Pile).length = 5) :
    ∀ (hand : List Card) (n : Nat), (∀ x ∈ hand, x.color < 5) →
      findPlayable ps hand n = some none ∨
      ∃ i, findPlayable ps hand n = some (some i) ∧ n ≤ i ∧ i - n < hand.length := by
  intro hand
  induction hand with
  | nil => exact fun n _ => Or.inl rfl
  | cons c t ih =>
    intro n h
    obtain ⟨b, hb⟩ :=
      is_playable_isSome ps c hlen (h c (List.mem_cons_self _ _))
    have hunf : findPlayable ps (c :: t) n =
        (match ps.is_playable c with
          | none => none
          | some true => some (some n)
          | some false => findPlayable ps t (n + 1)) := rfl
    cases b with
    | true =>
      rw [hb] at hunf
      exact Or.inr ⟨n, hunf, Nat.le_refl n, by simp⟩
    | false =>
      rw [hb] at hunf
      rcases ih (n + 1) (fun x hx => h x (List.mem_cons_of_mem _ hx)) with h1 | ⟨i, h1, h2, h3⟩
      · rw [h1] at hunf
        exact Or.inl hunf
      · rw [h1] at hunf
        exact Or.inr ⟨i, hunf, by omega, by simp; omega⟩

theorem play_shape (stg : String) (ps : Piles) (hand : List Card)
    (hlen : (ps : List Pile).length = 5)
    (hcols : ∀ x ∈ hand, x.color < 5) (hne : hand ≠ []) :
    (∃ card h', card ∈ hand ∧ h'.length + 1 = hand.length ∧
       (∀ x ∈ h', x ∈ hand) ∧
       Game.play stg ps hand = finishPlay ps card h') ∨
    (stg ≠ "best" ∧ stg ≠ "random" ∧
       Game.play stg ps hand = .crash .unboundLocal) := by
  have hlen0 : hand.length ≠ 0 := fun h => hne (List.length_eq_zero.mp h)
  have hb0 : (hand.length == 0) = false := by simpa using hlen0
  by_cases hbest : stg = "best"
  · have hsb : (stg == "best") = true := by simpa using hbest
    rcases findPlayable_shape ps hlen hand 0 hcols with hf | ⟨i, hf, -, hi⟩
    · obtain ⟨card, h', hrc, hm, hl, hsub⟩ := remove_card_top hand hne
      refine Or.inl ⟨card, h', hm, hl, hsub, ?_⟩
      unfold Game.play
      simp only [hb0, Bool.false_eq_true, if_false, hsb, if_true, hf, hrc]
    · have hi' : i < hand.length := by omega
      obtain ⟨card, h', hrc, hm, hl, hsub⟩ := remove_card_idx hand i hi'
      refine Or.inl ⟨card, h', hm, hl, hsub, ?_⟩
      unfold Game.play
      simp only [hb0, Bool.false_eq_true, if_false, hsb, if_true, hf, hrc]
  · have hsb : (stg == "best") = false := by simpa using hbest
    by_cases hrand : stg = "random"
    · have hsr : (stg == "random") = true := by simpa using hrand
      obtain ⟨card, h', hrc, hm, hl, hsub⟩ := remove_card_top hand hne
      refine Or.inl ⟨card, h', hm, hl, hsub, ?_⟩
      unfold Game.play
      simp only [hb0, Bool.false_eq_true, if_false, hsb, hsr, if_true, hrc]
    · have hsr : (stg == "random") = false := by simpa using hrand
      refine Or.inr ⟨hbest, hrand, ?_⟩
      unfold Game.play
      simp only [hb0, Bool.false_eq_true, if_false, hsb, hsr]

theorem play_empty (stg : String) (ps : Piles) :
    Game.play stg ps [] = .invalid := rfl

theorem discard_shape (hints : Nat) (hand : List Card) :
    (hints ≥ 7 → Game.discard hints hand = .error .invalidAction) ∧
    (hints < 7 → hand = [] → Game.discard hints hand = .error .cardError) ∧
    (hints < 7 → ∀ hne : hand ≠ [],
      ∃ card hand', Player.remove_card hand none = .ok (card, hand') ∧
        card ∈ hand ∧ hand'.length + 1 = hand.length ∧ (∀ x ∈ hand', x ∈ hand) ∧
        Game.discard hints hand = .ok (hints + 1, hand')) := by
  refine ⟨?_, ?_, ?_⟩
  · intro h7
    unfold Game.discard
    rw [if_pos h7]
  · intro h7 hnil
    subst hnil
    unfold Game.discard
    rw [if_neg (by omega)]
    rfl
  · intro h7 hne
    obtain ⟨card, h', hrc, hm, hl, hsub⟩ := remove_card_top hand hne
    refine ⟨card, h', hrc, hm, hl, hsub, ?_⟩
    unfold Game.discard
    rw [if_neg (by omega), hrc]

theorem hint_shape (hints : Nat) :
    (hints > 0 → Game.hint hints = .ok (hints - 1)) ∧
    (hints = 0 → Game.hint hints = .error .invalidAction) := by
  constructor
  · intro h
    unfold Game.hint
    rw [if_pos h]
  · intro h
    unfold Game.hint
    rw [if_neg (by omega)]


/-! ### The game invariant -/

theorem sumLen_set (hs : List (List Card)) (i : Nat) (h' : List Card)
    (hi : i < hs.length) :
    sumLen (hs.set i h') + (hs.getD i []).length = sumLen hs + h'.length :=
  sumf_set List.length hs i h' [] hi

theorem modShift : ∀ p, p < 4 → ∀ cur, cur < 4 →
    ((4 + cur - (if cur + 1 = 4 then 0 else cur + 1)) % 4 = 3) ∧
    (p ≠ cur → (4 + p - (if cur + 1 = 4 then 0 else cur + 1)) % 4 + 1 =
      (4 + p - cur) % 4) := by
  decide

theorem mod4_self (cur : Nat) : (4 + cur - cur) % 4 = 0 := by
  have h : 4 + cur - cur = 4 := by omega
  rw [h]

/-- The part of the game invariant that only concerns a configuration in
the `running` phase: counter ranges and the hand-size bookkeeping that
makes an empty hand unreachable.  `(4 + p - cur) % 4` is the number of
other players acting before player `p`'s next turn: once the last-turn
flag is set, a player whose post-exhaustion turn has already been
completed (`turnsLeft ≤ (4 + p - cur) % 4`) may have lost one extra card
without a refill. -/
structure RunInv (c : Conf) : Prop where
  cur_lt : c.cur < 4
  err_pos : 1 ≤ c.errors
  err_le : c.errors ≤ 3
  tl_pos : 1 ≤ c.turnsLeft
  tl_le : c.turnsLeft ≤ 4
  pre : c.lastTurn = false → c.turnsLeft = 4 ∧
      ∀ p, p < 4 → c.errors + 1 ≤ (c.hands.getD p []).length
  post : c.lastTurn = true → c.deck = [] ∧ c.turnsLeft ≤ 3 ∧
      ∀ p, p < 4 →
        (c.turnsLeft ≤ (4 + p - c.cur) % 4 →
          c.errors ≤ (c.hands.getD p []).length) ∧
        ((4 + p - c.cur) % 4 < c.turnsLeft →
          c.errors + 1 ≤ (c.hands.getD p []).length)

/-- The global game invariant, preserved by every `step`. -/
structure Inv (c : Conf) : Prop where
  piles_good : goodPiles c.piles
  hands_len : c.hands.length = 4
  hands_le : ∀ h ∈ c.hands, h.length ≤ 4
  deck_ok : ∀ x ∈ c.deck, validCardP x
  hands_ok : ∀ h ∈ c.hands, ∀ x ∈ h, validCardP x
  hints_le : c.hints ≤ 7 + countTop5 c.piles
  conserve : c.deck.length + sumLen c.hands + sumPile c.piles + c.lost = 55
  run_inv : c.phase = .running → RunInv c
  fin_score : ∀ r, c.phase = .finished r → r.score = Piles.score c.piles

theorem runInv_hand_cur (c : Conf) (hR : RunInv c) :
    c.errors + 1 ≤ (handOf c).length := by
  unfold handOf
  cases hlast : c.lastTurn with
  | false => exact (hR.pre hlast).2 c.cur hR.cur_lt
  | true =>
    have hpost := hR.post hlast
    refine (hpost.2.2 c.cur hR.cur_lt).2 ?_
    rw [mod4_self]
    exact hR.tl_pos

theorem postDraw_hint (d : List Card) (hs : List (List Card)) (cur : Nat)
    (f : Bool) : postDraw .hint d hs cur f = (d, hs, f) := by
  unfold postDraw
  rw [if_neg]
  rintro (h | h) <;> exact Act.noConfusion h

theorem postDraw_empty (a : Act) (hs : List (List Card)) (cur : Nat)
    (f : Bool) (ha : a = .play ∨ a = .discard) :
    postDraw a [] hs cur f = ([], hs, true) := by
  unfold postDraw
  rw [if_pos ha]
  rfl

theorem postDraw_cons (a : Act) (d : List Card) (card : Card)
    (hs : List (List Card)) (cur : Nat) (f : Bool)
    (ha : a = .play ∨ a = .discard) (hl : d.getLast? = some card) :
    postDraw a d hs cur f =
      (d.dropLast, hs.set cur ((hs.getD cur []) ++ [card]), f) := by
  unfold postDraw Deck.pop CardStack.pop
  rw [if_pos ha, hl]

theorem completeTurn_eq (c : Conf) (a : Act) (hints' : Nat) (ps' : Piles)
    (hs' : List (List Card)) (li : Nat) (d2 : List Card)
    (hs2 : List (List Card)) (f2 : Bool)
    (hpd : postDraw a c.deck hs' c.cur c.lastTurn = (d2, hs2, f2)) :
    completeTurn c a hints' ps' hs' li =
      if (if f2 then c.turnsLeft - 1 else c.turnsLeft) = 0 then
        { c with hints := hints', piles := ps', deck := d2, hands := hs2,
                 lastTurn := f2,
                 turnsLeft := if f2 then c.turnsLeft - 1 else c.turnsLeft,
                 lost := c.lost + li, clock := c.clock + 1,
                 phase := .finished ⟨true, Piles.score ps', c.turn⟩ }
      else if c.turn > 35 then
        { c with hints := hints', piles := ps', deck := d2, hands := hs2,
                 lastTurn := f2,
                 turnsLeft := if f2 then c.turnsLeft - 1 else c.turnsLeft,
                 lost := c.lost + li, clock := c.clock + 1,
                 phase := .fatalStop }
      else if c.cur + 1 = 4 then
        { c with hints := hints', piles := ps', deck := d2, hands := hs2,
                 lastTurn := f2,
                 turnsLeft := if f2 then c.turnsLeft - 1 else c.turnsLeft,
                 lost := c.lost + li, clock := c.clock + 1,
                 cur := 0, turn := c.turn + 1, tries := 0 }
      else
        { c with hints := hints', piles := ps', deck := d2, hands := hs2,
                 lastTurn := f2,
                 turnsLeft := if f2 then c.turnsLeft - 1 else c.turnsLeft,
                 lost := c.lost + li, clock := c.clock + 1,
                 cur := c.cur + 1, tries := 0 } := by
  unfold completeTurn
  rw [hpd]


/-- Common tail of the invariant preservation argument: once the post-draw
deck, hands and flag are fixed, each of the four exits of the turn tail
(victory, turn-ceiling abort, advance with wrap, plain advance) preserves
the invariant, given the re-established `RunInv` for the advanced state. -/

theorem inv_after (c : Conf) (hints' : Nat) (ps' : Piles) (li : Nat)
    (d2 : List Card) (hs2 : List (List Card)) (f2 : Bool)
    (hph : c.phase = .running)
    (hgp : goodPiles ps')
    (hl2 : hs2.length = 4)
    (hle2 : ∀ h ∈ hs2, h.length ≤ 4)
    (hd2 : ∀ x ∈ d2, validCardP x)
    (hok2 : ∀ h ∈ hs2, ∀ x ∈ h, validCardP x)
    (hhints : hints' ≤ 7 + countTop5 ps')
    (hcons2 : d2.length + sumLen hs2 + sumPile ps' + (c.lost + li) = 55)
    (hrun : (if f2 then c.turnsLeft - 1 else c.turnsLeft) ≠ 0 →
      RunInv { c with
        hints := hints',
        piles := ps',
        deck := d2,
        hands := hs2,
        lastTurn := f2,
        turnsLeft := if f2 then c.turnsLeft - 1 else c.turnsLeft,
        lost := c.lost + li,
        clock := c.clock + 1,
        cur := if c.cur + 1 = 4 then 0 else c.cur + 1,
        turn := if c.cur + 1 = 4 then c.turn + 1 else c.turn,
        tries := 0 }) :
    Inv (if (if f2 then c.turnsLeft - 1 else c.turnsLeft) = 0 then
        { c with
          hints := hints',
          piles := ps',
          deck := d2,
          hands := hs2,
          lastTurn := f2,
          turnsLeft := if f2 then c.turnsLeft - 1 else c.turnsLeft,
          lost := c.lost + li,
          clock := c.clock + 1,
          phase := .finished ⟨true, Piles.score ps', c.turn⟩ }
      else if c.turn > 35 then
        { c with
          hints := hints',
          piles := ps',
          deck := d2,
          hands := hs2,
          lastTurn := f2,
          turnsLeft := if f2 then c.turnsLeft - 1 else c.turnsLeft,
          lost := c.lost + li,
          clock := c.clock + 1,
          phase := .fatalStop }
      else if c.cur + 1 = 4 then
        { c with
          hints := hints',
          piles := ps',
          deck := d2,
          hands := hs2,
          lastTurn := f2,
          turnsLeft := if f2 then c.turnsLeft - 1 else c.turnsLeft,
          lost := c.lost + li,
          clock := c.clock + 1,
          cur := 0,
          turn := c.turn + 1,
          tries := 0 }
      else
        { c with
          hints := hints',
          piles := ps',
          deck := d2,
          hands := hs2,
          lastTurn := f2,
          turnsLeft := if f2 then c.turnsLeft - 1 else c.turnsLeft,
          lost := c.lost + li,
          clock := c.clock + 1,
          cur := c.cur + 1,
          tries := 0 }) := by
  set tl2 := if f2 then c.turnsLeft - 1 else c.turnsLeft with htl
  split_ifs with h0 h35 h4
  · exact {
      piles_good := hgp
      hands_len := hl2
      hands_le := hle2
      deck_ok := hd2
      hands_ok := hok2
      hints_le := hhints
      conserve := hcons2
      run_inv := fun h => nomatch h
      fin_score := by
        intro r hr
        injection hr with h
        rw [← h] }
  · exact {
      piles_good := hgp
      hands_len := hl2
      hands_le := hle2
      deck_ok := hd2
      hands_ok := hok2
      hints_le := hhints
      conserve := hcons2
      run_inv := fun h => nomatch h
      fin_score := fun r hr => nomatch hr }
  · have hr := hrun h0
    rw [if_pos h4, if_pos h4] at hr
    exact {
      piles_good := hgp
      hands_len := hl2
      hands_le := hle2
      deck_ok := hd2
      hands_ok := hok2
      hints_le := hhints
      conserve := hcons2
      run_inv := fun _ => hr
      fin_score := by
        intro r hr2
        rw [show ({ c with
            hints := hints',
            piles := ps',
            deck := d2,
            hands := hs2,
            lastTurn := f2,
            turnsLeft := if f2 then c.turnsLeft - 1 else c.turnsLeft,
            lost := c.lost + li,
            clock := c.clock + 1,
            cur := 0,
            turn := c.turn + 1,
            tries := 0 } : Conf).phase = c.phase from rfl, hph] at hr2
        exact nomatch hr2 }
  · have hr := hrun h0
    rw [if_neg h4, if_neg h4] at hr
    exact {
      piles_good := hgp
      hands_len := hl2
      hands_le := hle2
      deck_ok := hd2
      hands_ok := hok2
      hints_le := hhints
      conserve := hcons2
      run_inv := fun _ => hr
      fin_score := by
        intro r hr2
        rw [show ({ c with
            hints := hints',
            piles := ps',
            deck := d2,
            hands := hs2,
            lastTurn := f2,
            turnsLeft := if f2 then c.turnsLeft - 1 else c.turnsLeft,
            lost := c.lost + li,
            clock := c.clock + 1,
            cur := c.cur + 1,
            tries := 0 } : Conf).phase = c.phase from rfl, hph] at hr2
        exact nomatch hr2 }

/-- A successful action preserves the invariant through `completeTurn`,
given the facts the dispatcher knows about the updated hints, piles and
hands. -/

theorem completeTurn_inv (c : Conf) (a : Act) (hints' : Nat) (ps' : Piles)
    (hs' : List (List Card)) (li : Nat)
    (hph : c.phase = .running)
    (hR : RunInv c)
    (hgp : goodPiles ps')
    (hclen : c.hands.length = 4)
    (hcle : ∀ h ∈ c.hands, h.length ≤ 4)
    (hhl : hs'.length = 4)
    (hhle : ∀ h ∈ hs', h.length ≤ 4)
    (hhints : hints' ≤ 7 + countTop5 ps')
    (hdeckok : ∀ x ∈ c.deck, validCardP x)
    (hsok : ∀ h ∈ hs', ∀ x ∈ h, validCardP x)
    (hcons : c.deck.length + sumLen hs' + sumPile ps' + (c.lost + li) = 55)
    (hcase :
      (a = .hint ∧ hs' = c.hands) ∨
      ((a = .play ∨ a = .discard) ∧
        (hs'.getD c.cur []).length + 1 = (c.hands.getD c.cur []).length ∧
        (∀ p, p ≠ c.cur → hs'.getD p [] = c.hands.getD p []))) :
    Inv (completeTurn c a hints' ps' hs' li) := by
  have hcur4 := hR.cur_lt
  have herr1 := hR.err_pos
  have herr3 := hR.err_le
  have htlp := hR.tl_pos
  have htll := hR.tl_le
  rcases hcase with ⟨ha, hhs⟩ | ⟨ha, hlencur, hother⟩
  · -- hint action: no draw, hands untouched
    subst ha
    subst hhs
    rw [completeTurn_eq c .hint hints' ps' c.hands li c.deck c.hands c.lastTurn
      (postDraw_hint _ _ _ _)]
    refine inv_after c hints' ps' li c.deck c.hands c.lastTurn hph hgp hhl hhle
      hdeckok hsok hhints hcons ?_
    intro htl2
    cases hlast : c.lastTurn with
    | false =>
      rw [hlast] at htl2
      rw [if_neg Bool.false_ne_true] at htl2 ⊢
      have hpre := hR.pre hlast
      exact {
        cur_lt := by dsimp only; split <;> omega
        err_pos := herr1
        err_le := herr3
        tl_pos := by dsimp only; omega
        tl_le := by dsimp only; omega
        pre := by
          dsimp only
          intro _
          exact ⟨hpre.1, hpre.2⟩
        post := by
          intro h
          simp at h }
    | true =>
      rw [hlast] at htl2
      rw [if_pos rfl] at htl2 ⊢
      have hpost := hR.post hlast
      have hcurb : c.errors + 1 ≤ (c.hands.getD c.cur []).length := by
        refine (hpost.2.2 c.cur hcur4).2 ?_
        rw [mod4_self]
        omega
      exact {
        cur_lt := by dsimp only; split <;> omega
        err_pos := herr1
        err_le := herr3
        tl_pos := by dsimp only; omega
        tl_le := by dsimp only; omega
        pre := by
          intro h
          simp at h
        post := by
          dsimp only
          intro _
          refine ⟨hpost.1, by omega, ?_⟩
          intro p hp
          by_cases hpc : p = c.cur
          · subst hpc
            have hm := (modShift c.cur hp c.cur hcur4).1
            rw [hm]
            constructor
            · intro _
              omega
            · intro hlt
              omega
          · have hm := (modShift p hp c.cur hcur4).2 hpc
            have hb := hpost.2.2 p hp
            constructor
            · intro hle
              exact hb.1 (by omega)
            · intro hlt
              exact hb.2 (by omega) }
  · -- play or discard: one card was removed from the active player's hand
    have hcur_hs : c.cur < hs'.length := by omega
    cases hdk : c.deck.getLast? with
    | some card =>
      cases hlast : c.lastTurn with
      | true =>
        exfalso
        have hdnil := (hR.post hlast).1
        rw [hdnil] at hdk
        exact nomatch hdk
      | false =>
        have hpre := hR.pre hlast
        have htl4 := hpre.1
        have hcmem : card ∈ c.deck := mem_of_getLast? hdk
        have hdne : c.deck ≠ [] := List.ne_nil_of_mem hcmem
        have hdlen : 1 ≤ c.deck.length := List.length_pos.mpr hdne
        have hpd : postDraw a c.deck hs' c.cur c.lastTurn =
            (c.deck.dropLast, hs'.set c.cur ((hs'.getD c.cur []) ++ [card]),
              c.lastTurn) :=
          postDraw_cons a c.deck card hs' c.cur c.lastTurn ha hdk
        rw [completeTurn_eq c a hints' ps' hs' li c.deck.dropLast
          (hs'.set c.cur ((hs'.getD c.cur []) ++ [card])) c.lastTurn hpd]
        have hget_cur : (hs'.set c.cur ((hs'.getD c.cur []) ++ [card])).getD c.cur [] =
            (hs'.getD c.cur []) ++ [card] := getD_set_self _ _ _ _ hcur_hs
        have hget_ne : ∀ p, p ≠ c.cur →
            (hs'.set c.cur ((hs'.getD c.cur []) ++ [card])).getD p [] =
              hs'.getD p [] :=
          fun p hp => getD_set_ne _ _ _ _ _ (Ne.symm hp)
        refine inv_after c hints' ps' li c.deck.dropLast _ c.lastTurn hph hgp
          ?_ ?_ ?_ ?_ hhints ?_ ?_
        · rw [List.length_set]
          exact hhl
        · intro h hh
          rcases mem_set_cases hh with h1 | h1
          · exact hhle h h1
          · subst h1
            rw [List.length_append, List.length_singleton]
            have h2 : (c.hands.getD c.cur []).length ≤ 4 :=
              hcle _ (getD_mem c.hands c.cur [] (by omega))
            omega
        · intro x hx
          exact hdeckok x (mem_of_mem_dropLast hx)
        · intro h hh x hx
          rcases mem_set_cases hh with h1 | h1
          · exact hsok h h1 x hx
          · subst h1
            rcases List.mem_append.mp hx with h2 | h2
            · exact hsok _ (getD_mem hs' c.cur [] hcur_hs) x h2
            · rw [List.mem_singleton] at h2
              subst h2
              exact hdeckok x hcmem
        · have hsl := sumLen_set hs' c.cur ((hs'.getD c.cur []) ++ [card]) hcur_hs
          rw [List.length_append, List.length_singleton] at hsl
          rw [List.length_dropLast]
          omega
        · rw [hlast, if_neg Bool.false_ne_true]
          intro htl2
          have hbc := hpre.2 c.cur hcur4
          exact {
            cur_lt := by dsimp only; split <;> omega
            err_pos := herr1
            err_le := herr3
            tl_pos := by dsimp only; omega
            tl_le := by dsimp only; omega
            pre := by
              dsimp only
              intro _
              refine ⟨by omega, ?_⟩
              intro p hp
              by_cases hpc : p = c.cur
              · subst hpc
                rw [hget_cur, List.length_append, List.length_singleton]
                have hb := hpre.2 c.cur hp
                omega
              · rw [hget_ne p hpc, hother p hpc]
                exact hpre.2 p hp
            post := by
              intro h
              simp at h }
    | none =>
      have hdnil : c.deck = [] := List.getLast?_eq_none_iff.mp hdk
      have hpd : postDraw a c.deck hs' c.cur c.lastTurn = ([], hs', true) := by
        rw [hdnil]
        exact postDraw_empty a hs' c.cur c.lastTurn ha
      rw [completeTurn_eq c a hints' ps' hs' li [] hs' true hpd]
      refine inv_after c hints' ps' li [] hs' true hph hgp hhl hhle
        ?_ hsok hhints ?_ ?_
      · intro x hx
        exact absurd hx (List.not_mem_nil x)
      · rw [hdnil] at hcons
        exact hcons
      · intro htl2
        rw [if_pos rfl] at htl2
        cases hlast : c.lastTurn with
        | false =>
          have hpre := hR.pre hlast
          have htl4 := hpre.1
          exact {
            cur_lt := by dsimp only; split <;> omega
            err_pos := herr1
            err_le := herr3
            tl_pos := by dsimp only; rw [if_pos rfl]; omega
            tl_le := by dsimp only; rw [if_pos rfl]; omega
            pre := by
              intro h
              simp at h
            post := by
              dsimp only
              intro _
              rw [if_pos rfl]
              refine ⟨rfl, by omega, ?_⟩
              intro p hp
              by_cases hpc : p = c.cur
              · subst hpc
                rw [(modShift c.cur hp c.cur hcur4).1]
                have hb := hpre.2 c.cur hp
                constructor
                · intro _
                  omega
                · intro h3
                  omega
              · have hm := (modShift p hp c.cur hcur4).2 hpc
                have hb := hpre.2 p hp
                rw [hother p hpc]
                constructor
                · intro _
                  omega
                · intro _
                  omega }
        | true =>
          have hpost := hR.post hlast
          have htl3 := hpost.2.1
          have hbc : c.errors + 1 ≤ (c.hands.getD c.cur []).length := by
            refine (hpost.2.2 c.cur hcur4).2 ?_
            rw [mod4_self]
            omega
          exact {
            cur_lt := by dsimp only; split <;> omega
            err_pos := herr1
            err_le := herr3
            tl_pos := by dsimp only; rw [if_pos rfl]; omega
            tl_le := by dsimp only; rw [if_pos rfl]; omega
            pre := by
              intro h
              simp at h
            post := by
              dsimp only
              intro _
              rw [if_pos rfl]
              refine ⟨rfl, by omega, ?_⟩
              intro p hp
              by_cases hpc : p = c.cur
              · subst hpc
                rw [(modShift c.cur hp c.cur hcur4).1]
                constructor
                · intro _
                  omega
                · intro h3
                  omega
              · have hm := (modShift p hp c.cur hcur4).2 hpc
                have hb := hpost.2.2 p hp
                rw [hother p hpc]
                constructor
                · intro hle
                  exact hb.1 (by omega)
                · intro hlt
                  exact hb.2 (by omega) }



theorem topNum_cards (p : Pile) (i k : Nat) (h : p.cards = pileRamp i k) :
    topNum p = k := by
  unfold topNum
  rw [h, pileRamp_getLast]

theorem runInv_tc (c : Conf) (t2 : Nat) (hR : RunInv c) :
    RunInv { c with tries := t2 } :=
  ⟨hR.cur_lt, hR.err_pos, hR.err_le, hR.tl_pos, hR.tl_le, hR.pre, hR.post⟩

theorem inv_tc (c : Conf) (t2 k2 : Nat) (hI : Inv c) :
    Inv { c with tries := t2, clock := k2 } :=
  ⟨hI.piles_good, hI.hands_len, hI.hands_le, hI.deck_ok, hI.hands_ok,
    hI.hints_le, hI.conserve,
    fun h => RunInv.mk (hI.run_inv h).cur_lt (hI.run_inv h).err_pos
      (hI.run_inv h).err_le (hI.run_inv h).tl_pos (hI.run_inv h).tl_le
      (hI.run_inv h).pre (hI.run_inv h).post,
    fun r hr => hI.fin_score r hr⟩

theorem inv_crash (c : Conf) (e : Crash) (t2 k2 : Nat) (hI : Inv c) :
    Inv { c with phase := .crashed e, tries := t2, clock := k2 } :=
  ⟨hI.piles_good, hI.hands_len, hI.hands_le, hI.deck_ok, hI.hands_ok,
    hI.hints_le, hI.conserve, fun h => (nomatch h), fun r hr => nomatch hr⟩

theorem hands_set_facts (c : Conf) (h2 : List Card)
    (hclen : c.hands.length = 4) (hcur : c.cur < 4)
    (hlen2 : h2.length + 1 = (handOf c).length)
    (hsub : ∀ x ∈ h2, x ∈ handOf c)
    (hcle : ∀ h ∈ c.hands, h.length ≤ 4)
    (hok : ∀ h ∈ c.hands, ∀ x ∈ h, validCardP x) :
    (c.hands.set c.cur h2).length = 4 ∧
    (∀ h ∈ c.hands.set c.cur h2, h.length ≤ 4) ∧
    (∀ h ∈ c.hands.set c.cur h2, ∀ x ∈ h, validCardP x) ∧
    sumLen (c.hands.set c.cur h2) + 1 = sumLen c.hands ∧
    ((c.hands.set c.cur h2).getD c.cur []).length + 1 =
      (c.hands.getD c.cur []).length ∧
    (∀ p, p ≠ c.cur → (c.hands.set c.cur h2).getD p [] = c.hands.getD p []) := by
  have hcur' : c.cur < c.hands.length := by omega
  have hmemh : handOf c ∈ c.hands := getD_mem _ _ _ hcur'
  refine ⟨by rw [List.length_set]; exact hclen, ?_, ?_, ?_, ?_, ?_⟩
  · intro h hh
    rcases mem_set_cases hh with h1 | h1
    · exact hcle h h1
    · subst h1
      have := hcle _ hmemh
      omega
  · intro h hh x hx
    rcases mem_set_cases hh with h1 | h1
    · exact hok h h1 x hx
    · subst h1
      exact hok _ hmemh x (hsub x hx)
  · have hsl := sumLen_set c.hands c.cur h2 hcur'
    unfold handOf at hlen2
    omega
  · rw [getD_set_self _ _ _ _ hcur']
    exact hlen2
  · exact fun p hp => getD_set_ne _ _ _ _ _ (Ne.symm hp)

/-- One action attempt preserves the game invariant. -/


theorem inv_step (stg : String) (o : Nat → Act) (c : Conf) (hI : Inv c) :
    Inv (step stg o c) := by
  cases hph : c.phase with
  | finished r =>
    have hs : step stg o c = c := by unfold step; rw [hph]
    rw [hs]; exact hI
  | fatalStop =>
    have hs : step stg o c = c := by unfold step; rw [hph]
    rw [hs]; exact hI
  | crashed e =>
    have hs : step stg o c = c := by unfold step; rw [hph]
    rw [hs]; exact hI
  | running =>
    have hR := hI.run_inv hph
    have hclen := hI.hands_len
    have herr1 := hR.err_pos
    have herr3 := hR.err_le
    have hcur' : c.cur < c.hands.length := by
      rw [hclen]; exact hR.cur_lt
    by_cases htr : c.tries + 1 > 20
    · have hs : step stg o c =
          { c with tries := c.tries + 1, phase := .fatalStop } := by
        unfold step; rw [hph, if_pos htr]
      rw [hs]
      exact ⟨hI.piles_good, hI.hands_len, hI.hands_le, hI.deck_ok, hI.hands_ok,
        hI.hints_le, hI.conserve, fun h => (nomatch h), fun r hr => nomatch hr⟩
    · cases hact : o c.clock with
      | hint =>
        rcases Nat.eq_zero_or_pos c.hints with hz | hpos
        · have hta : tryAction stg (o c.clock) c = .retry := by
            unfold tryAction
            rw [hact, (hint_shape c.hints).2 hz]
          have hs : step stg o c =
              { c with tries := c.tries + 1, clock := c.clock + 1 } := by
            unfold step; rw [hph, if_neg htr, hta]
          rw [hs]
          exact inv_tc c _ _ hI
        · have hta : tryAction stg (o c.clock) c =
              .success .hint (c.hints - 1) c.piles c.hands 0 := by
            unfold tryAction
            rw [hact, (hint_shape c.hints).1 hpos]
          have hs : step stg o c =
              completeTurn { c with tries := c.tries + 1 } .hint (c.hints - 1)
                c.piles c.hands 0 := by
            unfold step; rw [hph, if_neg htr, hta]
          rw [hs]
          refine completeTurn_inv _ .hint (c.hints - 1) c.piles c.hands 0 hph
            (runInv_tc c _ hR) hI.piles_good hclen hI.hands_le hclen hI.hands_le
            ?_ hI.deck_ok hI.hands_ok ?_ (Or.inl ⟨rfl, rfl⟩)
          · have := hI.hints_le
            omega
          · have := hI.conserve
            dsimp only
            omega
      | discard =>
        by_cases h7 : c.hints ≥ 7
        · have hta : tryAction stg (o c.clock) c = .retry := by
            unfold tryAction
            rw [hact, (discard_shape c.hints (handOf c)).1 h7]
          have hs : step stg o c =
              { c with tries := c.tries + 1, clock := c.clock + 1 } := by
            unfold step; rw [hph, if_neg htr, hta]
          rw [hs]
          exact inv_tc c _ _ hI
        · have h7' : c.hints < 7 := by omega
          cases hhem : handOf c with
          | nil =>
            have hta : tryAction stg (o c.clock) c = .escape .cardEscape := by
              unfold tryAction
              rw [hact, (discard_shape c.hints (handOf c)).2.1 h7' hhem]
            have hs : step stg o c = { c with
                phase := .crashed .cardEscape,
                tries := c.tries + 1,
                clock := c.clock + 1 } := by
              unfold step; rw [hph, if_neg htr, hta]
            rw [hs]
            exact inv_crash c _ _ _ hI
          | cons a0 t0 =>
            have hne : handOf c ≠ [] := by rw [hhem]; simp
            obtain ⟨card, h2, hrc, hm, hl2, hsub, hdeq⟩ :=
              (discard_shape c.hints (handOf c)).2.2 h7' hne
            have hta : tryAction stg (o c.clock) c =
                .success .discard (c.hints + 1) c.piles (c.hands.set c.cur h2) 1 := by
              unfold tryAction
              rw [hact, hdeq]
            have hs : step stg o c =
                completeTurn { c with tries := c.tries + 1 } .discard (c.hints + 1)
                  c.piles (c.hands.set c.cur h2) 1 := by
              unfold step; rw [hph, if_neg htr, hta]
            rw [hs]
            obtain ⟨hf1, hf2, hf3, hf4, hf5, hf6⟩ :=
              hands_set_facts c h2 hclen hR.cur_lt hl2 hsub hI.hands_le hI.hands_ok
            refine completeTurn_inv _ .discard (c.hints + 1) c.piles
              (c.hands.set c.cur h2) 1 hph (runInv_tc c _ hR) hI.piles_good hclen
              hI.hands_le hf1 hf2 ?_ hI.deck_ok hf3 ?_ (Or.inr ⟨Or.inr rfl, hf5, hf6⟩)
            · omega
            · have := hI.conserve
              dsimp only
              omega
      | play =>
        cases hhem : handOf c with
        | nil =>
          have hta : tryAction stg (o c.clock) c = .retry := by
            unfold tryAction
            rw [hact, hhem, play_empty]
          have hs : step stg o c =
              { c with tries := c.tries + 1, clock := c.clock + 1 } := by
            unfold step; rw [hph, if_neg htr, hta]
          rw [hs]
          exact inv_tc c _ _ hI
        | cons a0 t0 =>
          have hne : handOf c ≠ [] := by rw [hhem]; simp
          have hhandok : ∀ x ∈ handOf c, validCardP x :=
            hI.hands_ok _ (getD_mem _ _ _ hcur')
          have hcols : ∀ x ∈ handOf c, x.color < 5 := fun x hx => (hhandok x hx).2.2
          rcases play_shape stg c.piles (handOf c) hI.piles_good.1 hcols hne with
            ⟨card, h2, hm, hl2, hsub, hpeq⟩ | ⟨hnb, hnr, hpeq⟩
          · have hcardv : validCardP card := hhandok card hm
            obtain ⟨hf1, hf2, hf3, hf4, hf5, hf6⟩ :=
              hands_set_facts c h2 hclen hR.cur_lt hl2 hsub hI.hands_le hI.hands_ok
            rcases append_cases c.piles card hI.piles_good hcardv with
              happ | ⟨k, hk4, hkc, hnum, hres⟩
            · -- WrongPlayError
              have hpw : Game.play stg c.piles (handOf c) = .wrongPlay h2 := by
                rw [hpeq]; unfold finishPlay; rw [happ]
              have hta : tryAction stg (o c.clock) c =
                  .wrong (c.hands.set c.cur h2) := by
                unfold tryAction
                rw [hact, hpw]
              have hs : step stg o c =
                  if c.errors - 1 = 0 then
                    { c with
                      hands := c.hands.set c.cur h2,
                      errors := c.errors - 1,
                      lost := c.lost + 1,
                      tries := c.tries + 1,
                      clock := c.clock + 1,
                      phase := .finished ⟨false, Piles.score c.piles, c.turn⟩ }
                  else
                    { c with
                      hands := c.hands.set c.cur h2,
                      errors := c.errors - 1,
                      lost := c.lost + 1,
                      tries := c.tries + 1,
                      clock := c.clock + 1 } := by
                unfold step; rw [hph, if_neg htr, hta]
              by_cases he0 : c.errors - 1 = 0
              · rw [hs, if_pos he0]
                refine ⟨hI.piles_good, hf1, hf2, hI.deck_ok, hf3, hI.hints_le, ?_,
                  fun h => (nomatch h), ?_⟩
                · have := hI.conserve
                  dsimp only
                  omega
                · intro r hr
                  injection hr with hh
                  rw [← hh]
              · rw [hs, if_neg he0]
                refine ⟨hI.piles_good, hf1, hf2, hI.deck_ok, hf3, hI.hints_le, ?_,
                  ?_, ?_⟩
                · have := hI.conserve
                  dsimp only
                  omega
                · intro _
                  refine ⟨hR.cur_lt, by dsimp only; omega, by dsimp only; omega,
                    hR.tl_pos, hR.tl_le, ?_, ?_⟩
                  · dsimp only
                    intro hlf
                    have hpre := hR.pre hlf
                    refine ⟨hpre.1, ?_⟩
                    intro p hp
                    by_cases hpc : p = c.cur
                    · subst hpc
                      have hb := hpre.2 c.cur hp
                      omega
                    · rw [hf6 p hpc]
                      have hb := hpre.2 p hp
                      omega
                  · dsimp only
                    intro hlt
                    have hpost := hR.post hlt
                    refine ⟨hpost.1, hpost.2.1, ?_⟩
                    intro p hp
                    by_cases hpc : p = c.cur
                    · subst hpc
                      rw [mod4_self]
                      have hb := (hpost.2.2 c.cur hp).2 (by rw [mod4_self]; exact hR.tl_pos)
                      constructor
                      · intro hc0
                        have := hR.tl_pos
                        omega
                      · intro _
                        omega
                    · rw [hf6 p hpc]
                      have hb := hpost.2.2 p hp
                      constructor
                      · intro hh
                        have := hb.1 hh
                        omega
                      · intro hh
                        have := hb.2 hh
                        omega
                · intro r hr
                  have hcontra : Phase.running = Phase.finished r := by
                    rw [← hph]; exact hr
                  exact nomatch hcontra
            · -- playable: the pile grows
              have hi5 : card.color < (c.piles : List Pile).length := by
                rw [hI.piles_good.1]; exact hcardv.2.2
              have hgp2 : goodPiles ((c.piles : List Pile).set card.color
                  ⟨card.color, pileRamp card.color (k + 1)⟩) :=
                goodPiles_set c.piles card.color (k + 1) hI.piles_good
                  hcardv.2.2 (by omega)
              have hsp := sumPile_set c.piles card.color
                ⟨card.color, pileRamp card.color (k + 1)⟩ hi5
              have htn_old : topNum (pileAt c.piles card.color) = k :=
                topNum_cards _ _ _ hkc
              have hct := countTop5_set c.piles card.color
                ⟨card.color, pileRamp card.color (k + 1)⟩ hi5
              rw [htn_old] at hct
              rw [topNum_ramp] at hct
              have hplen : (pileAt c.piles card.color).cards.length = k + 1 := by
                rw [hkc, pileRamp_length]
              rw [hplen, pileRamp_length] at hsp
              rcases hres with ⟨hn5, happ⟩ | ⟨hn5, happ⟩
              · have hpok : Game.play stg c.piles (handOf c) =
                    .ok ((c.piles : List Pile).set card.color
                      ⟨card.color, pileRamp card.color (k + 1)⟩) h2 := by
                  rw [hpeq]; unfold finishPlay; rw [happ]
                have hta : tryAction stg (o c.clock) c =
                    .success .play c.hints ((c.piles : List Pile).set card.color
                      ⟨card.color, pileRamp card.color (k + 1)⟩)
                      (c.hands.set c.cur h2) 0 := by
                  unfold tryAction; rw [hact, hpok]
                have hs : step stg o c =
                    completeTurn { c with tries := c.tries + 1 } .play c.hints
                      ((c.piles : List Pile).set card.color
                        ⟨card.color, pileRamp card.color (k + 1)⟩)
                      (c.hands.set c.cur h2) 0 := by
                  unfold step; rw [hph, if_neg htr, hta]
                rw [hs]
                have hctEq : countTop5 ((c.piles : List Pile).set card.color
                    ⟨card.color, pileRamp card.color (k + 1)⟩) =
                    countTop5 c.piles := by
                  rw [if_neg (by omega : ¬ k = 5),
                    if_neg (by omega : ¬ k + 1 = 5)] at hct
                  omega
                refine completeTurn_inv _ .play c.hints _ (c.hands.set c.cur h2) 0
                  hph (runInv_tc c _ hR) hgp2 hclen hI.hands_le hf1 hf2 ?_
                  hI.deck_ok hf3 ?_ (Or.inr ⟨Or.inl rfl, hf5, hf6⟩)
                · rw [hctEq]
                  exact hI.hints_le
                · have := hI.conserve
                  dsimp only
                  omega
              · have hpok : Game.play stg c.piles (handOf c) =
                    .completed ((c.piles : List Pile).set card.color
                      ⟨card.color, pileRamp card.color (k + 1)⟩) h2 := by
                  rw [hpeq]; unfold finishPlay; rw [happ]
                have hta : tryAction stg (o c.clock) c =
                    .success .play (c.hints + 1) ((c.piles : List Pile).set card.color
                      ⟨card.color, pileRamp card.color (k + 1)⟩)
                      (c.hands.set c.cur h2) 0 := by
                  unfold tryAction; rw [hact, hpok]
                have hs : step stg o c =
                    completeTurn { c with tries := c.tries + 1 } .play (c.hints + 1)
                      ((c.piles : List Pile).set card.color
                        ⟨card.color, pileRamp card.color (k + 1)⟩)
                      (c.hands.set c.cur h2) 0 := by
                  unfold step; rw [hph, if_neg htr, hta]
                rw [hs]
                have hctEq : countTop5 ((c.piles : List Pile).set card.color
                    ⟨card.color, pileRamp card.color (k + 1)⟩) =
                    countTop5 c.piles + 1 := by
                  rw [if_neg (by omega : ¬ k = 5),
                    if_pos (by omega : k + 1 = 5)] at hct
                  omega
                refine completeTurn_inv _ .play (c.hints + 1) _
                  (c.hands.set c.cur h2) 0 hph (runInv_tc c _ hR) hgp2 hclen
                  hI.hands_le hf1 hf2 ?_ hI.deck_ok hf3 ?_
                  (Or.inr ⟨Or.inl rfl, hf5, hf6⟩)
                · rw [hctEq]
                  have := hI.hints_le
                  omega
                · have := hI.conserve
                  dsimp only
                  omega
          · have hta : tryAction stg (o c.clock) c = .escape .unboundLocal := by
              unfold tryAction; rw [hact, hpeq]
            have hs : step stg o c = { c with
                phase := .crashed .unboundLocal,
                tries := c.tries + 1,
                clock := c.clock + 1 } := by
              unfold step; rw [hph, if_neg htr, hta]
            rw [hs]
            exact inv_crash c _ _ _ hI



/-! ### The invariant holds initially and along every run -/

theorem dealHand_spec : ∀ (n : Nat) (d : List Card), n ≤ d.length →
    ∃ h d', dealHand n d = some (h, d') ∧ h.length = n ∧
      d'.length = d.length - n ∧ (∀ x ∈ h, x ∈ d) ∧ (∀ x ∈ d', x ∈ d) := by
  intro n
  induction n with
  | zero =>
    intro d _
    exact ⟨[], d, rfl, rfl, by omega, by simp, fun x hx => hx⟩
  | succ m ih =>
    intro d hle
    have hne : d ≠ [] := by
      intro h
      rw [h] at hle
      simp at hle
    cases hl : d.getLast? with
    | none => exact absurd (List.getLast?_eq_none_iff.mp hl) hne
    | some c0 =>
      have hpop : Deck.pop d = .ok (c0, d.dropLast) := by
        unfold Deck.pop CardStack.pop
        rw [hl]
      have hdl : d.dropLast.length = d.length - 1 := List.length_dropLast d
      obtain ⟨h, d', hdeal, hh, hd', hmem1, hmem2⟩ := ih d.dropLast (by omega)
      refine ⟨c0 :: h, d', ?_, by simp [hh], by omega, ?_, ?_⟩
      · unfold dealHand
        rw [hpop]
        show Option.map (fun r => (c0 :: r.1, r.2)) (dealHand m d.dropLast) = _
        rw [hdeal]
        rfl
      · intro x hx
        rcases List.mem_cons.mp hx with h1 | h1
        · subst h1
          exact mem_of_getLast? hl
        · exact mem_of_mem_dropLast (hmem1 x h1)
      · exact fun x hx => mem_of_mem_dropLast (hmem2 x hx)

theorem dealAll_spec : ∀ (p : Nat) (d : List Card), 4 * p ≤ d.length →
    ∃ hs d', dealAll p d = some (hs, d') ∧ hs.length = p ∧
      (∀ h ∈ hs, h.length = 4 ∧ ∀ x ∈ h, x ∈ d) ∧
      d'.length = d.length - 4 * p ∧ (∀ x ∈ d', x ∈ d) := by
  intro p
  induction p with
  | zero =>
    intro d _
    exact ⟨[], d, rfl, rfl, by simp, by omega, fun x hx => hx⟩
  | succ q ih =>
    intro d hle
    obtain ⟨h, d1, hdeal, hh, hd1, hmem1, hmem2⟩ :=
      dealHand_spec 4 d (by omega)
    obtain ⟨hs, d', hall, hslen, hsmem, hd', hmem3⟩ := ih d1 (by omega)
    refine ⟨h :: hs, d', ?_, by simp [hslen], ?_, by omega, ?_⟩
    · unfold dealAll
      rw [hdeal]
      show Option.map (fun r => (h :: r.1, r.2)) (dealAll q d1) = _
      rw [hall]
      rfl
    · intro g hg
      rcases List.mem_cons.mp hg with h1 | h1
      · subst h1
        exact ⟨hh, hmem1⟩
      · obtain ⟨hg1, hg2⟩ := hsmem g h1
        exact ⟨hg1, fun x hx => hmem2 x (hg2 x hx)⟩
    · exact fun x hx => hmem2 x (hmem3 x hx)

theorem sumLen_four (hs : List (List Card)) (hlen : hs.length = 4)
    (hall : ∀ h ∈ hs, h.length = 4) : sumLen hs = 16 := by
  rcases hs with _ | ⟨h1, _ | ⟨h2, _ | ⟨h3, _ | ⟨h4, _ | ⟨h5, t⟩⟩⟩⟩⟩ <;>
    simp at hlen
  have e1 := hall h1 (by simp)
  have e2 := hall h2 (by simp)
  have e3 := hall h3 (by simp)
  have e4 := hall h4 (by simp)
  unfold sumLen
  simp [e1, e2, e3, e4]

theorem getD_four (hs : List (List Card)) (hlen : hs.length = 4)
    (hall : ∀ h ∈ hs, h.length = 4) :
    ∀ p, p < 4 → (hs.getD p []).length = 4 := by
  intro p hp
  have hmem : hs.getD p [] ∈ hs := getD_mem hs p [] (by omega)
  exact hall _ hmem

theorem initConf_run (d : List Card) (hd : validDeck d) :
    ∃ hs d', dealAll 4 d = some (hs, d') ∧
      initConf d = ({
        hints := 7,
        errors := 3,
        deck := d',
        piles := Piles.init,
        hands := hs,
        cur := 0,
        tries := 0,
        clock := 0,
        turn := 1,
        lastTurn := false,
        turnsLeft := 4,
        lost := 0,
        phase := .running } : Conf) ∧
      hs.length = 4 ∧ (∀ h ∈ hs, h.length = 4 ∧ ∀ x ∈ h, x ∈ d) ∧
      d'.length = 34 ∧ (∀ x ∈ d', x ∈ d) := by
  have h50 := hd.1
  obtain ⟨hs, d', hall, hslen, hsmem, hd', hmem⟩ :=
    dealAll_spec 4 d (by omega)
  refine ⟨hs, d', hall, ?_, hslen, hsmem, by omega, hmem⟩
  unfold initConf
  rw [hall]

theorem sumPile_init : sumPile Piles.init = 5 := rfl

theorem countTop5_init : countTop5 Piles.init = 0 := rfl

theorem inv_init (d : List Card) (hd : validDeck d) : Inv (initConf d) := by
  obtain ⟨hs, d', hall, hconf, hslen, hsmem, hd', hmem⟩ := initConf_run d hd
  rw [hconf]
  have hle4 : ∀ h ∈ hs, h.length ≤ 4 := fun h hh => by
    rw [(hsmem h hh).1]
  refine ⟨goodPiles_init, hslen, hle4, ?_, ?_, ?_, ?_, ?_, ?_⟩
  · intro x hx
    exact hd.2 x (hmem x hx)
  · intro h hh x hx
    exact hd.2 x ((hsmem h hh).2 x hx)
  · dsimp only
    rw [countTop5_init]
  · dsimp only
    rw [sumLen_four hs hslen (fun h hh => (hsmem h hh).1), sumPile_init]
    omega
  · intro _
    refine ⟨by dsimp only; omega, by dsimp only; omega, by dsimp only; omega,
      by dsimp only; omega, by dsimp only; omega, ?_, ?_⟩
    · dsimp only
      intro _
      refine ⟨rfl, ?_⟩
      intro p hp
      have := getD_four hs hslen (fun h hh => (hsmem h hh).1) p hp
      omega
    · intro h
      exact nomatch h
  · intro r hr
    exact nomatch hr

theorem confAt_zero (stg : String) (o : Nat → Act) (d : List Card) :
    confAt stg o d 0 = initConf d := rfl

theorem confAt_succ (stg : String) (o : Nat → Act) (d : List Card) (n : Nat) :
    confAt stg o d (n + 1) = step stg o (confAt stg o d n) := by
  unfold confAt
  exact Function.iterate_succ_apply' _ _ _

/-- The game invariant holds at every reachable configuration of a run. -/
theorem inv_confAt (stg : String) (o : Nat → Act) (d : List Card) (n : Nat)
    (hd : validDeck d) : Inv (confAt stg o d n) := by
  induction n with
  | zero => exact inv_init d hd
  | succ m ih =>
    rw [confAt_succ]
    exact inv_step stg o _ ih



/-! ### No uncaught non-Hanabi error under the documented strategies -/

theorem completeTurn_phase_cases (c : Conf) (a : Act) (hints' : Nat)
    (ps' : Piles) (hs' : List (List Card)) (li : Nat) :
    (completeTurn c a hints' ps' hs' li).phase = c.phase ∨
    (∃ r, (completeTurn c a hints' ps' hs' li).phase = .finished r) ∨
    (completeTurn c a hints' ps' hs' li).phase = .fatalStop := by
  unfold completeTurn
  dsimp only
  split_ifs <;>
    first
      | exact Or.inr (Or.inl ⟨_, rfl⟩)
      | exact Or.inr (Or.inr rfl)
      | exact Or.inl rfl

theorem tryAction_no_escape (stg : String) (c : Conf)
    (hst : stg = "best" ∨ stg = "random") (hI : Inv c) (hR : RunInv c) :
    ∀ act e, tryAction stg act c ≠ .escape e := by
  have hcur' : c.cur < c.hands.length := by
    rw [hI.hands_len]; exact hR.cur_lt
  have hhandne : handOf c ≠ [] := by
    have hb := runInv_hand_cur c hR
    intro hh
    rw [hh] at hb
    simp at hb
  intro act e
  cases act with
  | hint =>
    unfold tryAction
    cases Game.hint c.hints with
    | ok v => simp
    | error ev => simp
  | discard =>
    unfold tryAction
    by_cases h7 : c.hints ≥ 7
    · rw [(discard_shape c.hints (handOf c)).1 h7]
      simp
    · obtain ⟨card, h2, hrc, hm, hl2, hsub, hdeq⟩ :=
        (discard_shape c.hints (handOf c)).2.2 (by omega) hhandne
      rw [hdeq]
      simp
  | play =>
    unfold tryAction
    have hhandok : ∀ x ∈ handOf c, validCardP x :=
      hI.hands_ok _ (getD_mem _ _ _ hcur')
    have hcols : ∀ x ∈ handOf c, x.color < 5 := fun x hx => (hhandok x hx).2.2
    rcases play_shape stg c.piles (handOf c) hI.piles_good.1 hcols hhandne with
      ⟨card, h2, hm, hl2, hsub, hpeq⟩ | ⟨hnb, hnr, hpeq⟩
    · have hcardv : validCardP card := hhandok card hm
      rcases append_cases c.piles card hI.piles_good hcardv with
        happ | ⟨k, hk4, hkc, hnum, hres⟩
      · rw [hpeq]
        unfold finishPlay
        rw [happ]
        simp
      · rcases hres with ⟨hn5, happ⟩ | ⟨hn5, happ⟩ <;>
          · rw [hpeq]
            unfold finishPlay
            rw [happ]
            simp
    · rcases hst with h | h <;> · subst h; simp_all


theorem step_no_crash (stg : String) (o : Nat → Act) (c : Conf)
    (hst : stg = "best" ∨ stg = "random") (hI : Inv c)
    (hnc : ∀ e, c.phase ≠ .crashed e) :
    ∀ e, (step stg o c).phase ≠ .crashed e := by
  cases hph : c.phase with
  | crashed e0 => exact absurd hph (hnc e0)
  | finished r =>
    have hs : step stg o c = c := by unfold step; rw [hph]
    rw [hs, hph]
    intro e h
    exact nomatch h
  | fatalStop =>
    have hs : step stg o c = c := by unfold step; rw [hph]
    rw [hs, hph]
    intro e h
    exact nomatch h
  | running =>
    have hR := hI.run_inv hph
    by_cases htr : c.tries + 1 > 20
    · have hs : step stg o c =
          { c with tries := c.tries + 1, phase := .fatalStop } := by
        unfold step; rw [hph, if_pos htr]
      rw [hs]
      intro e h
      exact nomatch h
    · cases hta : tryAction stg (o c.clock) c with
      | retry =>
        have hs : step stg o c =
            { c with tries := c.tries + 1, clock := c.clock + 1 } := by
          unfold step; rw [hph, if_neg htr, hta]
        rw [hs]
        intro e h
        exact hnc e h
      | retryLost h' =>
        have hs : step stg o c = { c with
            hands := h',
            lost := c.lost + 1,
            tries := c.tries + 1,
            clock := c.clock + 1 } := by
          unfold step; rw [hph, if_neg htr, hta]
        rw [hs]
        intro e h
        exact hnc e h
      | escape e0 =>
        exact absurd hta (tryAction_no_escape stg c hst hI hR (o c.clock) e0)
      | wrong h' =>
        have hs : step stg o c =
            if c.errors - 1 = 0 then
              { c with
                hands := h',
                errors := c.errors - 1,
                lost := c.lost + 1,
                tries := c.tries + 1,
                clock := c.clock + 1,
                phase := .finished ⟨false, Piles.score c.piles, c.turn⟩ }
            else
              { c with
                hands := h',
                errors := c.errors - 1,
                lost := c.lost + 1,
                tries := c.tries + 1,
                clock := c.clock + 1 } := by
          unfold step; rw [hph, if_neg htr, hta]
        rw [hs]
        by_cases he0 : c.errors - 1 = 0
        · rw [if_pos he0]
          intro e h
          exact nomatch h
        · rw [if_neg he0]
          intro e h
          exact hnc e h
      | success a h' ps' hs' li =>
        have hs : step stg o c =
            completeTurn { c with tries := c.tries + 1 } a h' ps' hs' li := by
          unfold step; rw [hph, if_neg htr, hta]
        rw [hs]
        intro e h
        rcases completeTurn_phase_cases { c with tries := c.tries + 1 }
            a h' ps' hs' li with hc | ⟨r, hc⟩ | hc
        · rw [hc] at h
          exact hnc e h
        · rw [hc] at h
          exact nomatch h
        · rw [hc] at h
          exact nomatch h

/-- A run with one of the two documented strategies never reaches an
uncaught non-Hanabi error. -/
theorem confAt_no_crash (stg : String) (o : Nat → Act) (d : List Card)
    (n : Nat) (hst : stg = "best" ∨ stg = "random") (hd : validDeck d) :
    ∀ e, (confAt stg o d n).phase ≠ .crashed e := by
  induction n with
  | zero =>
    obtain ⟨hs, d', hall, hconf, -, -, -, -⟩ := initConf_run d hd
    rw [confAt_zero, hconf]
    intro e h
    exact nomatch h
  | succ m ih =>
    rw [confAt_succ]
    exact step_no_crash stg o _ hst (inv_confAt stg o d m hd) ih



/-! ### Characterization of the terminal transitions -/

theorem completeTurn_turnsLeft (c : Conf) (a : Act) (hints' : Nat)
    (ps' : Piles) (hs' : List (List Card)) (li : Nat) :
    (completeTurn c a hints' ps' hs' li).turnsLeft =
      if (postDraw a c.deck hs' c.cur c.lastTurn).2.2 then c.turnsLeft - 1
      else c.turnsLeft := by
  unfold completeTurn
  dsimp only
  split_ifs <;> rfl

theorem completeTurn_finished_iff (c : Conf) (a : Act) (hints' : Nat)
    (ps' : Piles) (hs' : List (List Card)) (li : Nat)
    (hph : c.phase = .running) :
    ∀ r, (completeTurn c a hints' ps' hs' li).phase = .finished r ↔
      ((if (postDraw a c.deck hs' c.cur c.lastTurn).2.2 then c.turnsLeft - 1
        else c.turnsLeft) = 0 ∧ r = ⟨true, Piles.score ps', c.turn⟩) := by
  intro r
  unfold completeTurn
  dsimp only
  set tl2 := if (postDraw a c.deck hs' c.cur c.lastTurn).2.2 = true then
    c.turnsLeft - 1 else c.turnsLeft with htl
  split_ifs with h1 h2 h3
  · constructor
    · intro h
      injection h with hh
      exact ⟨h1, hh.symm⟩
    · rintro ⟨-, hr⟩
      rw [hr]
  · constructor
    · intro h
      exact nomatch h
    · rintro ⟨h0, -⟩
      exact absurd h0 h1
  · constructor
    · intro h
      have h4 : c.phase = .finished r := h
      rw [hph] at h4
      exact nomatch h4
    · rintro ⟨h0, -⟩
      exact absurd h0 h1
  · constructor
    · intro h
      have h4 : c.phase = .finished r := h
      rw [hph] at h4
      exact nomatch h4
    · rintro ⟨h0, -⟩
      exact absurd h0 h1



/-! ### Counting helpers for the claim-level statements -/

theorem sum_ge_of_forall_ge (l : List Nat) (b : Nat) (h : ∀ x ∈ l, b ≤ x) :
    b * l.length ≤ l.sum := by
  induction l with
  | nil => simp
  | cons x t ih =>
    have hx := h x (List.mem_cons_self _ _)
    have ht := ih (fun y hy => h y (List.mem_cons_of_mem _ hy))
    simp only [List.sum_cons, List.length_cons]
    calc b * (t.length + 1) = b + b * t.length := by ring
    _ ≤ x + t.sum := Nat.add_le_add hx ht

theorem countTop5_le (ps : Piles) (h5 : (ps : List Pile).length = 5) :
    countTop5 ps ≤ 5 := by
  unfold countTop5
  have hb := sum_le_of_forall_le
    ((ps : List Pile).map (fun p => if topNum p = 5 then 1 else 0)) 1 ?_
  · rw [List.length_map, h5] at hb
    omega
  · intro x hx
    obtain ⟨p, -, hp⟩ := List.mem_map.mp hx
    rw [← hp]
    split <;> omega

theorem sumPile_ge5 (ps : Piles) (hgp : goodPiles ps) : 5 ≤ sumPile ps := by
  obtain ⟨h5, hall⟩ := hgp
  unfold sumPile
  have hb := sum_ge_of_forall_ge
    ((ps : List Pile).map (fun p => p.cards.length)) 1 ?_
  · rw [List.length_map, h5] at hb
    omega
  · intro x hx
    obtain ⟨p, hpm, hp⟩ := List.mem_map.mp hx
    obtain ⟨i, hi, hpi⟩ := List.mem_iff_getElem.mp hpm
    have hpa : pileAt ps i = p := by
      unfold pileAt
      rw [List.getD_eq_getElem (ps : List Pile) ⟨0, []⟩ hi, hpi]
    obtain ⟨-, k, -, hc⟩ := hall i (by omega)
    rw [← hp, ← hpa, hc, pileRamp_length]
    omega

/-- Modelled from the spec's words, not from the code: "sum of top-of-pile
ranks across all five piles (sentinel rank 0 contributes 0)".  To be compared
with the implementation's `Piles.score`. -/
def specScore (ps : Piles) : Nat :=
  ((List.range 5).map (fun i => topNum (pileAt ps i))).sum

theorem score_eq_specScore (ps : Piles) (h5 : (ps : List Pile).length = 5) :
    Piles.score ps = specScore ps := by
  rw [score_eq_sum_topNum]
  rcases ps with _ | ⟨p0, _ | ⟨p1, _ | ⟨p2, _ | ⟨p3, _ | ⟨p4, rest⟩⟩⟩⟩⟩ <;>
    simp only [List.length_cons, List.length_nil] at h5
  · omega
  · omega
  · omega
  · omega
  · omega
  · have hrest : rest = [] := by
      have : rest.length = 0 := by omega
      exact List.length_eq_zero.mp this
    subst hrest
    rfl

/-- Modelled from the spec's words: the number of cards held across the deck,
all player hands, and all piles, not counting the five sentinel rank-0 cards. -/
def totalVisible (c : Conf) : Nat :=
  c.deck.length + sumLen c.hands + (sumPile c.piles - 5)

/-- An explicit legal shuffle of `Deck.init` (a permutation, checked below):
player `p` is dealt red rank `p+1` at hand slot 0, the red 5 sits at deck
position 33 so that player 0 draws it after their first play, and all other
early draws are unplayable filler cards. -/
def deckC2 : List Card :=
  [⟨1, 0⟩, ⟨1, 0⟩, ⟨2, 0⟩, ⟨3, 0⟩, ⟨4, 0⟩,
   ⟨1, 1⟩, ⟨1, 1⟩, ⟨1, 1⟩, ⟨4, 1⟩, ⟨4, 1⟩, ⟨5, 1⟩,
   ⟨1, 2⟩, ⟨1, 2⟩, ⟨1, 2⟩, ⟨4, 2⟩, ⟨4, 2⟩, ⟨5, 2⟩,
   ⟨1, 3⟩, ⟨1, 3⟩, ⟨1, 3⟩, ⟨4, 3⟩, ⟨4, 3⟩, ⟨5, 3⟩,
   ⟨1, 4⟩, ⟨1, 4⟩, ⟨1, 4⟩, ⟨2, 4⟩, ⟨2, 4⟩, ⟨3, 4⟩, ⟨3, 4⟩, ⟨4, 4⟩, ⟨4, 4⟩, ⟨5, 4⟩,
   ⟨5, 0⟩,
   ⟨2, 1⟩, ⟨2, 1⟩, ⟨3, 1⟩, ⟨4, 0⟩,
   ⟨3, 1⟩, ⟨2, 2⟩, ⟨2, 2⟩, ⟨3, 0⟩,
   ⟨3, 2⟩, ⟨3, 2⟩, ⟨2, 3⟩, ⟨2, 0⟩,
   ⟨2, 3⟩, ⟨3, 3⟩, ⟨3, 3⟩, ⟨1, 0⟩]



/-- Claim C4: characterization of the two result records produced by the turn
loop.  At every running configuration whose retry counter has not hit the
ceiling, the next attempt returns the `Defeat` record (`finished = false`) iff
the action resolved as a `WrongPlayError` and the decremented error counter
reached 0, and that record carries the current pile score and turn counter; it
returns the `Victory` record (`finished = true`) iff the action succeeded and
the post-exhaustion countdown `turns_left` reached 0, and that record carries
the score of the piles as updated by the action.  Moreover after every
successful action the new `turns_left` is the old one decremented exactly when
the last-turn flag is set (and unchanged otherwise), and the countdown starts
at `n_players = 4`. -/
theorem claim_C4_results (stg : String) (o : Nat → Act) (d : List Card)
    (c : Conf) (hph : c.phase = .running) (htr : ¬ c.tries + 1 > 20) :
    (∀ r, (step stg o c).phase = .finished r ∧ r.finished = false ↔
      ((∃ h2, tryAction stg (o c.clock) c = .wrong h2) ∧ c.errors - 1 = 0 ∧
        r = ⟨false, Piles.score c.piles, c.turn⟩)) ∧
    (∀ r, (step stg o c).phase = .finished r ∧ r.finished = true ↔
      (∃ a hints2 ps2 hs2 li,
        tryAction stg (o c.clock) c = .success a hints2 ps2 hs2 li ∧
        (if (postDraw a c.deck hs2 c.cur c.lastTurn).2.2 then c.turnsLeft - 1
          else c.turnsLeft) = 0 ∧
        r = ⟨true, Piles.score ps2, c.turn⟩)) ∧
    (∀ a hints2 ps2 hs2 li,
      tryAction stg (o c.clock) c = .success a hints2 ps2 hs2 li →
      (step stg o c).turnsLeft =
        (if (postDraw a c.deck hs2 c.cur c.lastTurn).2.2 then c.turnsLeft - 1
          else c.turnsLeft)) ∧
    (initConf d).turnsLeft = 4 := by
  have hinit : (initConf d).turnsLeft = 4 := by
    unfold initConf
    cases dealAll 4 d with
    | none => rfl
    | some p =>
      obtain ⟨hs0, d2⟩ := p
      rfl
  have hmain : (∀ r, (step stg o c).phase = .finished r ∧ r.finished = false ↔
      ((∃ h2, tryAction stg (o c.clock) c = .wrong h2) ∧ c.errors - 1 = 0 ∧
        r = ⟨false, Piles.score c.piles, c.turn⟩)) ∧
      (∀ r, (step stg o c).phase = .finished r ∧ r.finished = true ↔
        (∃ a hints2 ps2 hs2 li,
          tryAction stg (o c.clock) c = .success a hints2 ps2 hs2 li ∧
          (if (postDraw a c.deck hs2 c.cur c.lastTurn).2.2 then c.turnsLeft - 1
            else c.turnsLeft) = 0 ∧
          r = ⟨true, Piles.score ps2, c.turn⟩)) ∧
      (∀ a hints2 ps2 hs2 li,
        tryAction stg (o c.clock) c = .success a hints2 ps2 hs2 li →
        (step stg o c).turnsLeft =
          (if (postDraw a c.deck hs2 c.cur c.lastTurn).2.2 then c.turnsLeft - 1
            else c.turnsLeft)) := by
    cases hta : tryAction stg (o c.clock) c with
    | retry =>
      have hs : step stg o c =
          { c with tries := c.tries + 1, clock := c.clock + 1 } := by
        unfold step; rw [hph, if_neg htr, hta]
      refine ⟨?_, ?_, ?_⟩
      · intro r
        constructor
        · rintro ⟨hfin, -⟩
          rw [hs] at hfin
          have h4 : c.phase = .finished r := hfin
          rw [hph] at h4
          exact nomatch h4
        · rintro ⟨⟨h2, hw⟩, -⟩
          exact nomatch hw
      · intro r
        constructor
        · rintro ⟨hfin, -⟩
          rw [hs] at hfin
          have h4 : c.phase = .finished r := hfin
          rw [hph] at h4
          exact nomatch h4
        · rintro ⟨a2, h2, ps2, hs2, li2, hta2, -⟩
          exact nomatch hta2
      · intro a2 h2 ps2 hs2 li2 hta2
        exact nomatch hta2
    | retryLost h' =>
      have hs : step stg o c = { c with
          hands := h',
          lost := c.lost + 1,
          tries := c.tries + 1,
          clock := c.clock + 1 } := by
        unfold step; rw [hph, if_neg htr, hta]
      refine ⟨?_, ?_, ?_⟩
      · intro r
        constructor
        · rintro ⟨hfin, -⟩
          rw [hs] at hfin
          have h4 : c.phase = .finished r := hfin
          rw [hph] at h4
          exact nomatch h4
        · rintro ⟨⟨h2, hw⟩, -⟩
          exact nomatch hw
      · intro r
        constructor
        · rintro ⟨hfin, -⟩
          rw [hs] at hfin
          have h4 : c.phase = .finished r := hfin
          rw [hph] at h4
          exact nomatch h4
        · rintro ⟨a2, h2, ps2, hs2, li2, hta2, -⟩
          exact nomatch hta2
      · intro a2 h2 ps2 hs2 li2 hta2
        exact nomatch hta2
    | escape e0 =>
      have hs : step stg o c = { c with
          phase := .crashed e0,
          tries := c.tries + 1,
          clock := c.clock + 1 } := by
        unfold step; rw [hph, if_neg htr, hta]
      refine ⟨?_, ?_, ?_⟩
      · intro r
        constructor
        · rintro ⟨hfin, -⟩
          rw [hs] at hfin
          exact nomatch hfin
        · rintro ⟨⟨h2, hw⟩, -⟩
          exact nomatch hw
      · intro r
        constructor
        · rintro ⟨hfin, -⟩
          rw [hs] at hfin
          exact nomatch hfin
        · rintro ⟨a2, h2, ps2, hs2, li2, hta2, -⟩
          exact nomatch hta2
      · intro a2 h2 ps2 hs2 li2 hta2
        exact nomatch hta2
    | wrong h' =>
      have hs : step stg o c =
          if c.errors - 1 = 0 then
            { c with
              hands := h',
              errors := c.errors - 1,
              lost := c.lost + 1,
              tries := c.tries + 1,
              clock := c.clock + 1,
              phase := .finished ⟨false, Piles.score c.piles, c.turn⟩ }
          else
            { c with
              hands := h',
              errors := c.errors - 1,
              lost := c.lost + 1,
              tries := c.tries + 1,
              clock := c.clock + 1 } := by
        unfold step; rw [hph, if_neg htr, hta]
      by_cases he0 : c.errors - 1 = 0
      · rw [if_pos he0] at hs
        refine ⟨?_, ?_, ?_⟩
        · intro r
          constructor
          · rintro ⟨hfin, -⟩
            rw [hs] at hfin
            have h4 : Phase.finished ⟨false, Piles.score c.piles, c.turn⟩ =
                .finished r := hfin
            injection h4 with hr
            exact ⟨⟨h', rfl⟩, he0, hr.symm⟩
          · rintro ⟨-, -, hr⟩
            subst hr
            rw [hs]
            exact ⟨rfl, rfl⟩
        · intro r
          constructor
          · rintro ⟨hfin, htt⟩
            rw [hs] at hfin
            have h4 : Phase.finished ⟨false, Piles.score c.piles, c.turn⟩ =
                .finished r := hfin
            injection h4 with hr
            rw [← hr] at htt
            exact nomatch htt
          · rintro ⟨a2, h2, ps2, hs2, li2, hta2, -⟩
            exact nomatch hta2
        · intro a2 h2 ps2 hs2 li2 hta2
          exact nomatch hta2
      · rw [if_neg he0] at hs
        refine ⟨?_, ?_, ?_⟩
        · intro r
          constructor
          · rintro ⟨hfin, -⟩
            rw [hs] at hfin
            have h4 : c.phase = .finished r := hfin
            rw [hph] at h4
            exact nomatch h4
          · rintro ⟨-, he2, -⟩
            exact absurd he2 he0
        · intro r
          constructor
          · rintro ⟨hfin, -⟩
            rw [hs] at hfin
            have h4 : c.phase = .finished r := hfin
            rw [hph] at h4
            exact nomatch h4
          · rintro ⟨a2, h2, ps2, hs2, li2, hta2, -⟩
            exact nomatch hta2
        · intro a2 h2 ps2 hs2 li2 hta2
          exact nomatch hta2
    | success a h' ps' hs' li =>
      have hs : step stg o c =
          completeTurn { c with tries := c.tries + 1 } a h' ps' hs' li := by
        unfold step; rw [hph, if_neg htr, hta]
      have hph' : ({ c with tries := c.tries + 1 } : Conf).phase = .running :=
        hph
      have hiff := completeTurn_finished_iff { c with tries := c.tries + 1 }
        a h' ps' hs' li hph'
      refine ⟨?_, ?_, ?_⟩
      · intro r
        constructor
        · rintro ⟨hfin, hff⟩
          rw [hs] at hfin
          obtain ⟨-, hr⟩ := (hiff r).mp hfin
          subst hr
          exact nomatch hff
        · rintro ⟨⟨h2, hw⟩, -⟩
          exact nomatch hw
      · intro r
        constructor
        · rintro ⟨hfin, -⟩
          rw [hs] at hfin
          obtain ⟨htl0, hr⟩ := (hiff r).mp hfin
          exact ⟨a, h', ps', hs', li, rfl, htl0, hr⟩
        · rintro ⟨a2, h2, ps2, hs2, li2, hta2, htl0, hr⟩
          injection hta2 with e1 e2 e3 e4 e5
          subst e1
          subst e2
          subst e3
          subst e4
          subst e5
          rw [hs]
          refine ⟨(hiff r).mpr ⟨htl0, hr⟩, ?_⟩
          subst hr
          rfl
      · intro a2 h2 ps2 hs2 li2 hta2
        injection hta2 with e1 e2 e3 e4 e5
        subst e1
        subst e2
        subst e3
        subst e4
        subst e5
        rw [hs]
        exact completeTurn_turnsLeft { c with tries := c.tries + 1 }
          a h' ps' hs' li
  exact ⟨hmain.1, hmain.2.1, hmain.2.2, hinit⟩


/-! ### The claims -/

/-- Claim C1 (refuted: code bug).  The spec says an action attempt that fails
with WrongPlay is consumed as that turn's single action.  In the code the
`WrongPlayError` handler decrements the error counter but never sets
`successful`, so the same player immediately attempts again inside the same
turn.  Witnessed by running the unshuffled deck with an all-`play` action
stream: attempt 1 is a misplay by player 0 (errors 3 to 2) after which player
0 is still the active player and the turn counter is unchanged; attempt 2 is
another misplay by the same player 0 (errors 2 to 1); attempt 3 ends the game
in Defeat, all three error tokens having been burned inside player 0's first
turn, while under the spec the three misplays would have been made by three
different players. -/
theorem claim_C1_wrongplay_not_consumed :
    validDeck Deck.init ∧
    (confAt "best" (fun _ => Act.play) Deck.init 1).phase = .running ∧
    (confAt "best" (fun _ => Act.play) Deck.init 1).errors = 2 ∧
    (confAt "best" (fun _ => Act.play) Deck.init 1).cur = 0 ∧
    (confAt "best" (fun _ => Act.play) Deck.init 1).turn = 1 ∧
    (confAt "best" (fun _ => Act.play) Deck.init 2).phase = .running ∧
    (confAt "best" (fun _ => Act.play) Deck.init 2).errors = 1 ∧
    (confAt "best" (fun _ => Act.play) Deck.init 2).cur = 0 ∧
    (confAt "best" (fun _ => Act.play) Deck.init 2).turn = 1 ∧
    (confAt "best" (fun _ => Act.play) Deck.init 3).phase =
      .finished ⟨false, 0, 1⟩ := by
  refine ⟨by decide, rfl, rfl, rfl, rfl, rfl, rfl, rfl, rfl, rfl⟩

/-- Claim C2, counterexample.  The hint counter is not capped at 7: `deckC2`
is a legal shuffle of the starting deck (an explicit permutation of
`Deck.init`) under which five all-`play` attempts with the `best` strategy
play red 1, 2, 3, 4 and then red 5; completing the red pile awards an
uncapped bonus hint and the run reaches a running state with 8 hint
tokens. -/
theorem claim_C2_hint_cap_counterexample :
    deckC2.Perm Deck.init ∧ validDeck deckC2 ∧
    (confAt "best" (fun _ => Act.play) deckC2 5).phase = .running ∧
    (confAt "best" (fun _ => Act.play) deckC2 5).hints = 8 := by
  refine ⟨by decide, by decide, rfl, rfl⟩

/-- Claim C2, amended.  The hint counter is bounded not by 7 but by 7 plus
the number of completed piles at that state (each `CompletedPile` awards one
uncapped bonus hint), hence by 12 at every reachable state of every run. -/
theorem claim_C2_hints_bound (stg : String) (o : Nat → Act) (d : List Card)
    (n : Nat) (hd : validDeck d) :
    (confAt stg o d n).hints ≤ 7 + countTop5 (confAt stg o d n).piles ∧
    (confAt stg o d n).hints ≤ 12 := by
  have hI := inv_confAt stg o d n hd
  have h1 := hI.hints_le
  have h2 := countTop5_le (confAt stg o d n).piles hI.piles_good.1
  exact ⟨h1, by omega⟩

theorem claim_C2_hints_bound_witness :
    (confAt "best" (fun _ => Act.hint) Deck.init 1).hints ≤
      7 + countTop5 (confAt "best" (fun _ => Act.hint) Deck.init 1).piles ∧
    (confAt "best" (fun _ => Act.hint) Deck.init 1).hints ≤ 12 :=
  claim_C2_hints_bound "best" (fun _ => Act.hint) Deck.init 1 (by decide)

/-- Claim C3, counterexample.  The total number of cards across the deck, the
hands and the piles (sentinels not counted) is 50 at the start of every run,
never 60, and it is not conserved: a discarded card is dropped from every
container (`Game.discard` pops the hand and the card is bound to a dead local,
never appended anywhere).  After one hint and one successful discard on the
unshuffled deck the run is still going, one card has left the game forever,
and the visible total is 49. -/
theorem claim_C3_total_counterexample :
    validDeck Deck.init ∧
    totalVisible
      (confAt "best" (fun n => if n = 0 then Act.hint else Act.discard)
        Deck.init 0) = 50 ∧
    (confAt "best" (fun n => if n = 0 then Act.hint else Act.discard)
        Deck.init 2).phase = .running ∧
    (confAt "best" (fun n => if n = 0 then Act.hint else Act.discard)
        Deck.init 2).lost = 1 ∧
    totalVisible
      (confAt "best" (fun n => if n = 0 then Act.hint else Act.discard)
        Deck.init 2) = 49 := by
  refine ⟨by decide, rfl, rfl, rfl, rfl⟩

/-- Claim C3, amended conservation law.  At every reachable state the visible
total (deck plus hands plus piles, minus the five sentinels) equals 50 minus
the number of cards the program has dropped so far (`lost` counts successful
discards and misplayed cards, which the code removes from the hand without
appending to any container). -/
theorem claim_C3_conservation (stg : String) (o : Nat → Act) (d : List Card)
    (n : Nat) (hd : validDeck d) :
    totalVisible (confAt stg o d n) + (confAt stg o d n).lost = 50 := by
  have hI := inv_confAt stg o d n hd
  have hc := hI.conserve
  have hp := sumPile_ge5 (confAt stg o d n).piles hI.piles_good
  unfold totalVisible
  omega

theorem claim_C3_conservation_witness :
    totalVisible (confAt "best" (fun _ => Act.discard) Deck.init 2) +
      (confAt "best" (fun _ => Act.discard) Deck.init 2).lost = 50 :=
  claim_C3_conservation "best" (fun _ => Act.discard) Deck.init 2 (by decide)

theorem claim_C4_results_witness :
    (initConf Deck.init).turnsLeft = 4 :=
  (claim_C4_results "best" (fun _ => Act.hint) Deck.init (initConf Deck.init)
    (by decide) (by decide)).2.2.2

/-- Claim C5: at every reachable state, every pile carries exactly the
contiguous ramp of ranks `0..k` for some `k ≤ 5` (the rank-0 sentinel at the
bottom, each successful append having added exactly rank top + 1), and a pile
whose top rank is 5 accepts no further card: any card of that color is
rejected with `WrongPlayError`. -/
theorem claim_C5_pile_ramp (stg : String) (o : Nat → Act) (d : List Card)
    (n : Nat) (hd : validDeck d) :
    (∀ i, i < 5 → ∃ k, k ≤ 5 ∧
      (pileAt (confAt stg o d n).piles i).cards = pileRamp i k) ∧
    (∀ card : Card, validCardP card →
      topNum (pileAt (confAt stg o d n).piles card.color) = 5 →
      Piles.append (confAt stg o d n).piles card = .wrongPlay) := by
  have hI := inv_confAt stg o d n hd
  obtain ⟨h5, hall⟩ := hI.piles_good
  refine ⟨fun i hi => (hall i hi).2, ?_⟩
  intro card hv htop
  have hv' : 1 ≤ card.number ∧ card.number ≤ 5 ∧ card.color < 5 := hv
  obtain ⟨h1n, hn5, hcol⟩ := hv'
  obtain ⟨hcolor, k, hk5, hk⟩ := hall card.color hcol
  have ht := topNum_cards (pileAt (confAt stg o d n).piles card.color)
    card.color k hk
  have hkeq : k = 5 := by omega
  subst hkeq
  exact (append_spec (confAt stg o d n).piles card 5 h5 hcol hcolor hk).2.2
    (by omega)

theorem claim_C5_pile_ramp_witness :
    ∃ k, k ≤ 5 ∧
      (pileAt (confAt "best" (fun _ => Act.hint) Deck.init 0).piles 2).cards =
        pileRamp 2 k :=
  (claim_C5_pile_ramp "best" (fun _ => Act.hint) Deck.init 0 (by decide)).1 2
    (by omega)

/-- Claim C6: at every reachable state `Piles.score` computes exactly the
spec's "sum of top-of-pile ranks across all five piles" (the sentinel top
contributes 0) and lies in `0..25`, and every finished run's result record
carries exactly that value as its score. -/
theorem claim_C6_score (stg : String) (o : Nat → Act) (d : List Card)
    (n : Nat) (hd : validDeck d) :
    Piles.score (confAt stg o d n).piles = specScore (confAt stg o d n).piles ∧
    Piles.score (confAt stg o d n).piles ≤ 25 ∧
    ∀ r, (confAt stg o d n).phase = .finished r →
      r.score = specScore (confAt stg o d n).piles ∧ r.score ≤ 25 := by
  have hI := inv_confAt stg o d n hd
  have h1 := score_eq_specScore (confAt stg o d n).piles hI.piles_good.1
  have h2 := score_le_25 (confAt stg o d n).piles hI.piles_good
  refine ⟨h1, h2, fun r hr => ?_⟩
  have h3 := hI.fin_score r hr
  exact ⟨by rw [h3]; exact h1, by rw [h3]; exact h2⟩

theorem claim_C6_score_witness :
    Piles.score (confAt "best" (fun _ => Act.discard) Deck.init 1).piles =
      specScore (confAt "best" (fun _ => Act.discard) Deck.init 1).piles ∧
    Piles.score (confAt "best" (fun _ => Act.discard) Deck.init 1).piles ≤ 25 :=
  ⟨(claim_C6_score "best" (fun _ => Act.discard) Deck.init 1 (by decide)).1,
   (claim_C6_score "best" (fun _ => Act.discard) Deck.init 1 (by decide)).2.1⟩

/-- Claim C7: with the hint counter at 7 a discard is rejected with
`InvalidActionError` whatever the hand holds; below 7 with a nonempty hand it
removes exactly the top (last) card of the hand and increments the counter by
exactly one; below 7 with an empty hand it raises `events.CardError` and
changes nothing. -/
theorem claim_C7_discard (hints : Nat) (hand : List Card) :
    (hints = 7 → Game.discard hints hand = .error .invalidAction) ∧
    (hints < 7 → ∀ hne : hand ≠ [],
      Game.discard hints hand = .ok (hints + 1, hand.dropLast) ∧
      hand = hand.dropLast ++ [hand.getLast hne]) ∧
    (hints < 7 → hand = [] → Game.discard hints hand = .error .cardError) := by
  obtain ⟨ha, hb, -⟩ := discard_shape hints hand
  refine ⟨fun h => ha (by omega), ?_, fun h7 hnil => hb h7 hnil⟩
  intro h7 hne
  have hgl := List.getLast?_eq_getLast hand hne
  have hpop : CardStack.pop hand = .ok (hand.getLast hne, hand.dropLast) := by
    unfold CardStack.pop
    rw [hgl]
  constructor
  · unfold Game.discard Player.remove_card
    rw [if_neg (by omega), hpop]
  · exact (List.dropLast_append_getLast hne).symm

theorem claim_C7_discard_witness :
    Game.discard 7 [⟨1, 0⟩] = .error .invalidAction ∧
    Game.discard 3 [⟨1, 0⟩, ⟨2, 1⟩] = .ok (4, [⟨1, 0⟩]) ∧
    Game.discard 3 [] = .error .cardError :=
  ⟨(claim_C7_discard 7 [⟨1, 0⟩]).1 rfl,
   ((claim_C7_discard 3 [⟨1, 0⟩, ⟨2, 1⟩]).2.1 (by omega) (by decide)).1,
   (claim_C7_discard 3 []).2.2 (by omega) rfl⟩

/-- Claim C8: popping an empty deck yields the distinct `EmptyDeck` signal
(`Deck.pop` re-raises the raw stack's `CardError`, which is what the bare pop
produces, so the generic empty-stack error never escapes a draw), and the turn
loop's reaction is idempotent: after a play or discard with the deck empty, no
draw occurs (deck and hands unchanged, so the hand stays one card short) and
the last-turn flag is true whatever its prior value, i.e. a repeated
exhaustion after the flag is already set leaves the countdown state
unchanged. -/
theorem claim_C8_deck_exhausted :
    Deck.pop [] = .error .emptyDeck ∧
    CardStack.pop ([] : List Card) = .error .cardError ∧
    ∀ a hs cur f, (a = Act.play ∨ a = Act.discard) →
      postDraw a [] hs cur f = ([], hs, true) :=
  ⟨rfl, rfl, fun a hs cur f ha => postDraw_empty a hs cur f ha⟩

/-- Claim C9: for the two documented strategies, no per-action error ever
escapes the turn loop: at every reachable state of every run the phase is
never `crashed` (the embedding's `crashed` phase models exactly an uncaught
`InvalidActionError`, `WrongPlayError`, `CompletedPile`, `EmptyDeck`,
`CardError` or Python-level lookup error leaving `game_loop`); a run only
runs, returns a result record, or stops with the fatal/anomaly class.  In
particular the uncaught `CardError` that discarding from an empty hand would
raise is unreachable: the active player's hand is never empty when a discard
resolves. -/
theorem claim_C9_no_escape (stg : String) (o : Nat → Act) (d : List Card)
    (n : Nat) (hst : stg = "best" ∨ stg = "random") (hd : validDeck d)
    (e : Crash) :
    (confAt stg o d n).phase ≠ .crashed e :=
  confAt_no_crash stg o d n hst hd e

theorem claim_C9_no_escape_witness :
    (confAt "best" (fun _ => Act.discard) Deck.init 6).phase ≠
      .crashed .cardEscape :=
  claim_C9_no_escape "best" (fun _ => Act.discard) Deck.init 6 (Or.inl rfl)
    (by decide) .cardEscape

/-- Claim C10: for any strategy other than `"best"` and `"random"`,
`Game.play` on a nonempty hand always takes the `else` branch whose guard
reads the unbound local `found_card` and raises `UnboundLocalError`, an
unhandled non-Hanabi error: the play action is well-defined only for the two
documented strategies. -/
theorem claim_C10_unbound_local (stg : String) (ps : Piles)
    (hand : List Card) (h1 : stg ≠ "best") (h2 : stg ≠ "random")
    (hne : hand ≠ []) :
    Game.play stg ps hand = .crash .unboundLocal := by
  have hlen0 : hand.length ≠ 0 := fun h => hne (List.length_eq_zero.mp h)
  have hb0 : (hand.length == 0) = false := by simpa using hlen0
  have hsb : (stg == "best") = false := by simpa using h1
  have hsr : (stg == "random") = false := by simpa using h2
  unfold Game.play
  simp only [hb0, Bool.false_eq_true, if_false, hsb, hsr]

theorem claim_C10_unbound_local_witness :
    Game.play "greedy" Piles.init [⟨1, 0⟩] = .crash .unboundLocal :=
  claim_C10_unbound_local "greedy" Piles.init [⟨1, 0⟩] (by decide) (by decide)
    (by decide)

end Hanabi
